import Mathlib

/-!
Verification of the Pulse circuit-evaluation engine.

This file contains a shallow embedding of the Pulse digital-logic sandbox:
the data model (`model.ts`), the evaluation engine and stateful updater
(`engine.ts`), the custom-component adapter (`utils/custom-components.ts`),
the port resolver (`utils/port-positions.ts`) and the wire-creation logic
(`components/Workspace.tsx`), followed by theorems about those definitions.
-/

namespace Pulse

/-- Component kinds from `model.ts` (`ComponentType`).  At runtime the kind is
a plain string (the deserializer only checks `typeof comp.type === 'string'`),
so unrecognized kinds are representable via `UNKNOWN`. -/
inductive Ctype where
  | AND | OR | NOT | NAND | NOR | XOR | XNOR
  | TOGGLE | CLOCK | LED | CUSTOM | REGISTER
  | UNKNOWN (s : String)
deriving DecidableEq, Repr

/-- One endpoint of a wire: `{ compId, port }`. -/
structure WireEnd where
  compId : String
  port : String
deriving DecidableEq, Repr

/-- A wire from `model.ts`; `wfrom`/`wto` embed the `from`/`to` fields
(`from` is a Lean keyword). -/
structure Wire where
  id : String
  wfrom : WireEnd
  wto : WireEnd
deriving DecidableEq, Repr

/-- The `props` bag of a component.  The engine reads two entries:
`state` (JS `!!c.props.state`, absent reads as `false`) and `lastTick`
(JS `c.props.lastTick || 0`, absent reads as `0`). -/
structure Props where
  state : Bool
  lastTick : Nat
deriving DecidableEq, Repr

mutual
/-- A placed component (`model.ts` `Component`): id, kind, position,
props, and the optional custom-component definition. -/
inductive Component : Type where
  | mk (id : String) (type : Ctype) (x : Int) (y : Int) (props : Props)
       (customDef : Option CustomComponentDefinition) : Component

/-- `model.ts` `CustomComponentDefinition`: name, the TOGGLE ids that act
as inputs, the LED ids that act as outputs, and the nested model. -/
inductive CustomComponentDefinition : Type where
  | mk (name : String) (inputPins : List String) (outputPins : List String)
       (internalModel : CircuitModel) : CustomComponentDefinition

/-- `model.ts` `CircuitModel`: the components and the wires. -/
inductive CircuitModel : Type where
  | mk (components : List Component) (wires : List Wire) : CircuitModel
end

def Component.id : Component → String
  | .mk i _ _ _ _ _ => i

def Component.type : Component → Ctype
  | .mk _ t _ _ _ _ => t

def Component.props : Component → Props
  | .mk _ _ _ _ p _ => p

def Component.customDef : Component → Option CustomComponentDefinition
  | .mk _ _ _ _ _ d => d

/-- Replace the `props` of a component (the `{ ...c, props: ... }` spread). -/
def Component.withProps : Component → Props → Component
  | .mk i t x y _ d, p => .mk i t x y p d

def CustomComponentDefinition.name : CustomComponentDefinition → String
  | .mk n _ _ _ => n

def CustomComponentDefinition.inputPins : CustomComponentDefinition → List String
  | .mk _ i _ _ => i

def CustomComponentDefinition.outputPins : CustomComponentDefinition → List String
  | .mk _ _ o _ => o

def CustomComponentDefinition.internalModel : CustomComponentDefinition → CircuitModel
  | .mk _ _ _ m => m

def CircuitModel.components : CircuitModel → List Component
  | .mk cs _ => cs

def CircuitModel.wires : CircuitModel → List Wire
  | .mk _ ws => ws

mutual
/-- Depth of custom-component nesting below one component. -/
def Component.cdepth : Component → Nat
  | .mk _ _ _ _ _ none => 0
  | .mk _ _ _ _ _ (some d) => d.ddepth

/-- Depth of custom-component nesting of a definition. -/
def CustomComponentDefinition.ddepth : CustomComponentDefinition → Nat
  | .mk _ _ _ m => m.mdepth + 1

/-- Depth of custom-component nesting of a model. -/
def CircuitModel.mdepth : CircuitModel → Nat
  | .mk comps _ => depthList comps

/-- Maximum nesting depth over a list of components. -/
def depthList : List Component → Nat
  | [] => 0
  | c :: cs => max c.cdepth (depthList cs)
end

/-- `SignalMap` (`engine.ts`): a JS object mapping string keys to booleans;
an absent key reads as `undefined`, i.e. falsy. -/
def SignalMap := String → Option Bool

/-- `signals[k] = v` on a signal map. -/
def sset (σ : SignalMap) (k : String) (v : Bool) : SignalMap :=
  fun k' => if k' = k then some v else σ k'

/-- `!!signals[k]`: read a key, absent reads as `false`. -/
def sget (σ : SignalMap) (k : String) : Bool :=
  (σ k).getD false

/-- The empty signal map (`const signals = {}`). -/
def semp : SignalMap := fun _ => none

/-- The composite signal key `compId + ':' + port`. -/
def toKey (compId port : String) : String :=
  compId ++ ":" ++ port

/-- The key of a wire endpoint, `compId + ':' + port`. -/
def WireEnd.key (e : WireEnd) : String := toKey e.compId e.port

/-- The per-component output key `c.id + ':OUT'`. -/
def outKey (id : String) : String := toKey id "OUT"

/-! ### `utils/custom-components.ts` -/

/-- `getCustomComponentInputPorts`: `inputPins.map((_, index) => IN<index>)`. -/
def getCustomComponentInputPorts (d : CustomComponentDefinition) : List String :=
  d.inputPins.enum.map (fun p => "IN" ++ Nat.repr p.1)

/-- `getCustomComponentOutputPorts`: `outputPins.map((_, index) => OUT<index>)`. -/
def getCustomComponentOutputPorts (d : CustomComponentDefinition) : List String :=
  d.outputPins.enum.map (fun p => "OUT" ++ Nat.repr p.1)

/-- The per-component body of `mapInputsToToggles`: a TOGGLE whose id occurs
in `inputPins` (JS `indexOf`, first occurrence) gets its `props.state`
overridden with `externalInputs[IN<index>] || false`; everything else is
returned unchanged. -/
def mapToggleFn (d : CustomComponentDefinition)
    (externalInputs : String → Option Bool) (c : Component) : Component :=
  if c.type = Ctype.TOGGLE then
    match d.inputPins.findIdx? (fun pin => pin = c.id) with
    | some pinIndex =>
        c.withProps { c.props with
          state := (externalInputs ("IN" ++ Nat.repr pinIndex)).getD false }
    | none => c
  else c

/-- `mapInputsToToggles`: map `mapToggleFn` over the internal components. -/
def mapInputsToToggles (d : CustomComponentDefinition)
    (externalInputs : String → Option Bool) : List Component :=
  d.internalModel.components.map (mapToggleFn d externalInputs)

/-- `extractOutputsFromLeds`: `outputs[OUTi] = internalSignals[ledId + ':OUT'] || false`. -/
def extractOutputsFromLeds (d : CustomComponentDefinition)
    (internalSignals : SignalMap) : String → Option Bool :=
  d.outputPins.enum.foldl
    (fun m p => fun k =>
      if k = "OUT" ++ Nat.repr p.1 then some (sget internalSignals (outKey p.2)) else m k)
    (fun _ => none)

/-! ### `engine.ts`: the evaluator -/

/-- The wire map of `evaluate`: destination key `to.compId + ':' + to.port`
maps to the wire's `from` endpoint; a later wire to the same destination
overwrites an earlier one (`Map.set`). -/
def buildWireMap (wires : List Wire) : String → Option WireEnd :=
  wires.foldl
    (fun m w => fun k => if k = w.wto.key then some w.wfrom else m k)
    (fun _ => none)

/-- `inputOf(compId, port)`: look up the driving wire; if none, `false`,
else read the source's signal (`!!signals[from.compId + ':' + from.port]`). -/
def inputOf (wm : String → Option WireEnd) (σ : SignalMap)
    (compId port : String) : Bool :=
  match wm (toKey compId port) with
  | none => false
  | some f => sget σ f.key

/-- `computeCustomComponent`: gather the external inputs through the parent's
`inputOf`, substitute them into the internal TOGGLEs, evaluate the internal
model with `ev`, write every `OUTi` signal of the component into the parent's
signal map, and return `outputs['OUT0'] || false`. -/
def computeCustomComponent (ev : CircuitModel → SignalMap)
    (wm : String → Option WireEnd) (σ : SignalMap) (c : Component) :
    Bool × SignalMap :=
  match c.customDef with
  | none => (false, σ)
  | some d =>
    let inputPorts := getCustomComponentInputPorts d
    let externalInputs : String → Option Bool :=
      inputPorts.foldl
        (fun m port => fun k =>
          if k = port then some (inputOf wm σ c.id port) else m k)
        (fun _ => none)
    let mapped := mapInputsToToggles d externalInputs
    let internalModel : CircuitModel := .mk mapped d.internalModel.wires
    let internalSignals := ev internalModel
    let outputs := extractOutputsFromLeds d internalSignals
    let outputPorts := getCustomComponentOutputPorts d
    let σ' := outputPorts.foldl
      (fun s port => sset s (toKey c.id port) ((outputs port).getD false)) σ
    ((outputs "OUT0").getD false, σ')

/-- `computeOutput`, parameterized by the recursive evaluator `ev` used for
CUSTOM components.  Returns the computed boolean and the signal map (CUSTOM
components write their `OUTi` keys as a side effect). -/
def computeOutput (ev : CircuitModel → SignalMap)
    (wm : String → Option WireEnd) (σ : SignalMap) (c : Component) :
    Bool × SignalMap :=
  match c.type with
  | .TOGGLE => (c.props.state, σ)
  | .CLOCK => (c.props.state, σ)
  | .LED => (inputOf wm σ c.id "IN", σ)
  | .NOT => (!(inputOf wm σ c.id "A"), σ)
  | .AND => (inputOf wm σ c.id "A" && inputOf wm σ c.id "B", σ)
  | .OR => (inputOf wm σ c.id "A" || inputOf wm σ c.id "B", σ)
  | .NAND => (!(inputOf wm σ c.id "A" && inputOf wm σ c.id "B"), σ)
  | .NOR => (!(inputOf wm σ c.id "A" || inputOf wm σ c.id "B"), σ)
  | .XOR => (inputOf wm σ c.id "A" != inputOf wm σ c.id "B", σ)
  | .XNOR => (inputOf wm σ c.id "A" == inputOf wm σ c.id "B", σ)
  | .REGISTER => (c.props.state, σ)
  | .CUSTOM => computeCustomComponent ev wm σ c
  | .UNKNOWN _ => (false, σ)

/-- The ids of the model's components, in order. -/
def modelIds (m : CircuitModel) : List String :=
  m.components.map Component.id

/-- Insertion-ordered key set of a JS `Map` populated by `set` over a list:
first occurrence keeps its position, duplicates are dropped. -/
def insKeys (l : List String) : List String :=
  l.foldl (fun acc i => if i ∈ acc then acc else acc ++ [i]) []

/-- The insertion-ordered key list of the `adj`/`indegree` maps. -/
def modelKeys (m : CircuitModel) : List String :=
  insKeys (modelIds m)

/-- `compsById`: a `Map` from id to component; a later component with the
same id overwrites an earlier one. -/
def compsById (comps : List Component) : String → Option Component :=
  comps.foldl
    (fun m c => fun k => if k = c.id then some c else m k)
    (fun _ => none)

/-- Build the dependency graph of `evaluate`: for each wire whose two
endpoints are existing components, add the edge `from.compId -> to.compId`
unless it is already present, incrementing the destination's indegree. -/
def buildGraph (ids : List String) (wires : List Wire) :
    (String → List String) × (String → Nat) :=
  wires.foldl
    (fun g w =>
      if w.wfrom.compId ∈ ids ∧ w.wto.compId ∈ ids then
        if w.wto.compId ∈ g.1 w.wfrom.compId then g
        else
          (fun p => if p = w.wfrom.compId then g.1 p ++ [w.wto.compId] else g.1 p,
           fun x => if x = w.wto.compId then g.2 x + 1 else g.2 x)
      else g)
    (fun _ => [], fun _ => 0)

/-- The adjacency function of the model's dependency graph. -/
def modelAdj (m : CircuitModel) : String → List String :=
  (buildGraph (modelIds m) m.wires).1

/-- The indegree function of the model's dependency graph. -/
def modelDeg (m : CircuitModel) : String → Nat :=
  (buildGraph (modelIds m) m.wires).2

/-- The initial Kahn queue: all map keys with indegree `0`, in entry order. -/
def initQueue (m : CircuitModel) : List String :=
  (modelKeys m).filter (fun k => modelDeg m k = 0)

/-- Process the neighbors of a popped node: each neighbor's indegree becomes
`(indegree.get(nbr) || 1) - 1` (natural-number predecessor), and neighbors
whose stored indegree is now `0` are appended to the push list. -/
def processNbrs (nbrs : List String) (deg : String → Nat) :
    (String → Nat) × List String :=
  nbrs.foldl
    (fun s nbr =>
      let v := s.1 nbr - 1
      ((fun x => if x = nbr then v else s.1 x),
       if v = 0 then s.2 ++ [nbr] else s.2))
    (deg, [])

/-- The fueled Kahn loop: pop the queue head, append it to the topological
order, decrement its neighbors and push those that reach indegree `0`.
Returns the order, the unprocessed queue and the final indegrees. -/
def kahnLoop : Nat → (String → List String) → (String → Nat) →
    List String → List String → List String × List String × (String → Nat)
  | 0, _, deg, queue, topo => (topo, queue, deg)
  | fuel + 1, adj, deg, queue, topo =>
    match queue with
    | [] => (topo, [], deg)
    | id :: rest =>
      let s := processNbrs (adj id) deg
      kahnLoop fuel adj s.1 (rest ++ s.2) (topo ++ [id])

/-- The Kahn run of `evaluate` on a model; the fuel `|keys| + 1` is enough
for the loop to drain its queue (proved below). -/
def kahnResult (m : CircuitModel) :
    List String × List String × (String → Nat) :=
  kahnLoop ((modelKeys m).length + 1) (modelAdj m) (modelDeg m) (initQueue m) []

/-- The topological order computed by `evaluate`. -/
def topoOrder (m : CircuitModel) : List String :=
  (kahnResult m).1

/-- The initialization loop of `evaluate`: every component's `:OUT` key is
set, TOGGLE and CLOCK to their persisted state and every other kind to
`false`. -/
def initSignals (m : CircuitModel) : SignalMap :=
  m.components.foldl
    (fun σ c =>
      sset σ (outKey c.id)
        (if c.type = Ctype.TOGGLE ∨ c.type = Ctype.CLOCK then c.props.state else false))
    semp

/-- One step of the topological evaluation: look the id up in `compsById`
and write `computeOutput` to the component's `:OUT` key. -/
def topoStep (ev : CircuitModel → SignalMap) (wm : String → Option WireEnd)
    (cbi : String → Option Component) (σ : SignalMap) (id : String) : SignalMap :=
  match cbi id with
  | some c =>
    let r := computeOutput ev wm σ c
    sset r.2 (outKey c.id) r.1
  | none => σ

/-- The acyclic phase: evaluate the topological order left to right. -/
def topoPhase (ev : CircuitModel → SignalMap) (wm : String → Option WireEnd)
    (cbi : String → Option Component) (topo : List String) (σ : SignalMap) : SignalMap :=
  topo.foldl (topoStep ev wm cbi) σ

/-- One step of a fixed-point pass: recompute the component's output
(`computeOutput` may write CUSTOM `OUTi` keys) and, when the stored `:OUT`
value differs from the new one, overwrite it and raise the `changed` flag. -/
def passStep (ev : CircuitModel → SignalMap) (wm : String → Option WireEnd)
    (s : SignalMap × Bool) (c : Component) : SignalMap × Bool :=
  if sget (computeOutput ev wm s.1 c).2 (outKey c.id) = (computeOutput ev wm s.1 c).1 then
    ((computeOutput ev wm s.1 c).2, s.2)
  else
    (sset (computeOutput ev wm s.1 c).2 (outKey c.id) (computeOutput ev wm s.1 c).1, true)

/-- One fixed-point pass over the cyclic remainder, with the `changed` flag. -/
def runPass (ev : CircuitModel → SignalMap) (wm : String → Option WireEnd)
    (remaining : List Component) (σ : SignalMap) : SignalMap × Bool :=
  remaining.foldl (passStep ev wm) (σ, false)

/-- The bounded fixed-point loop (`MAX_ITER = 100`): run passes until one
changes nothing or the fuel is exhausted. -/
def fixLoop (ev : CircuitModel → SignalMap) (wm : String → Option WireEnd)
    (remaining : List Component) : Nat → SignalMap → SignalMap
  | 0, σ => σ
  | fuel + 1, σ =>
    if (runPass ev wm remaining σ).2 then
      fixLoop ev wm remaining fuel (runPass ev wm remaining σ).1
    else (runPass ev wm remaining σ).1

/-- The cyclic remainder: components whose id the topological order missed. -/
def remainingComps (m : CircuitModel) : List Component :=
  m.components.filter (fun c => c.id ∉ topoOrder m)

/-- The body of `evaluate`, parameterized by the evaluator `ev` used for the
internal models of CUSTOM components. -/
def evalBody (ev : CircuitModel → SignalMap) (m : CircuitModel) : SignalMap :=
  let wm := buildWireMap m.wires
  let σ1 := topoPhase ev wm (compsById m.components) (topoOrder m) (initSignals m)
  if (topoOrder m).length < m.components.length then
    fixLoop ev wm (remainingComps m) 100 σ1
  else σ1

/-- `evaluate` with explicit recursion fuel for CUSTOM nesting. -/
def evaluateFuel : Nat → CircuitModel → SignalMap
  | 0, _ => semp
  | fuel + 1, m => evalBody (evaluateFuel fuel) m

/-- `evaluate(model)`: the fuel `mdepth + 1` covers the nesting depth of
every CUSTOM definition reachable in the model, so the fuel never runs out. -/
def evaluate (m : CircuitModel) : SignalMap :=
  evaluateFuel (m.mdepth + 1) m

/-! ### `engine.ts`: `updateStatefulComponents` -/

/-- Resolve one named input of a register: the first wire into
`(c.id, port)` (JS `Array.find`), then the source's signal, with `dflt`
when no wire targets the port. -/
def resolveIn (wires : List Wire) (σ : SignalMap) (compId port : String)
    (dflt : Bool) : Bool :=
  match wires.find? (fun w => w.wto.compId = compId ∧ w.wto.port = port) with
  | some w => sget σ w.wfrom.key
  | none => dflt

/-- The per-component body of `updateStatefulComponents`; `now` is the
`Date.now()` sample of this call. -/
def updateComp (now : Nat) (wires : List Wire) (signals prevSignals : SignalMap)
    (c : Component) : Component :=
  match c.type with
  | .CLOCK =>
    let tick := now % 1000
    if tick < 500 ∧ 500 ≤ c.props.lastTick then
      c.withProps { state := !c.props.state, lastTick := tick }
    else
      c.withProps { c.props with lastTick := tick }
  | .REGISTER =>
    let clkW := wires.find? (fun w => w.wto.compId = c.id ∧ w.wto.port = "CLK")
    let enW := wires.find? (fun w => w.wto.compId = c.id ∧ w.wto.port = "EN")
    let dW := wires.find? (fun w => w.wto.compId = c.id ∧ w.wto.port = "D")
    let clk := match clkW with | some w => sget signals w.wfrom.key | none => false
    let prevClk := match clkW with | some w => sget prevSignals w.wfrom.key | none => false
    let en := match enW with | some w => sget signals w.wfrom.key | none => true
    let d := match dW with | some w => sget signals w.wfrom.key | none => false
    if clk && !prevClk && en then c.withProps { c.props with state := d } else c
  | _ => c

/-- `updateStatefulComponents(model, signals, prevSignals)` with the
`Date.now()` sample passed explicitly. -/
def updateStatefulComponents (now : Nat) (m : CircuitModel)
    (signals prevSignals : SignalMap) : CircuitModel :=
  .mk (m.components.map (updateComp now m.wires signals prevSignals)) m.wires

/-! ### `utils/port-positions.ts` -/

/-- `getComponentOutputPorts`: CUSTOM components expose `OUT0..OUTn`,
LED exposes none, every other kind exposes `['OUT']`. -/
def getComponentOutputPorts (c : Component) : List String :=
  if c.type = Ctype.CUSTOM ∧ (c.customDef).isSome then
    match c.customDef with
    | some d => getCustomComponentOutputPorts d
    | none => []
  else if c.type ≠ Ctype.LED then ["OUT"]
  else []

/-! ### `components/Workspace.tsx`: wire creation -/

/-- `endConnection` (the input-port branch): if the destination component
exists and no wire with the same source and destination endpoints exists,
append a new wire; `wid` stands for the random id. -/
def endConnection (m : CircuitModel) (wid : String) (cfrom : WireEnd)
    (peComp pePort : String) : CircuitModel :=
  match m.components.find? (fun c => c.id = peComp) with
  | none => m
  | some orig =>
    if m.wires.any (fun w =>
        w.wfrom.compId = cfrom.compId ∧ w.wfrom.port = cfrom.port ∧
        w.wto.compId = orig.id ∧ w.wto.port = pePort) then m
    else .mk m.components (m.wires ++ [⟨wid, cfrom, ⟨orig.id, pePort⟩⟩])

/-- The one-driver-per-input-port invariant of the spec: no two wires in the
model target the same `(componentId, portName)` pair. -/
def oneDriverPerInput (m : CircuitModel) : Prop :=
  m.wires.Pairwise (fun w1 w2 => w1.wto ≠ w2.wto)

instance (m : CircuitModel) : Decidable (oneDriverPerInput m) :=
  List.instDecidablePairwise m.wires

/-- Modelled from the spec (used only to state a refuted claim): "if the
phase crosses the half-period boundary since the last recorded phase, flip
`props.state`" --- the phase moved from one side of `500` to the other. -/
def crossedHalfBoundary (lastTick tick : Nat) : Bool :=
  (decide (lastTick < 500) && decide (500 ≤ tick)) ||
  (decide (500 ≤ lastTick) && decide (tick < 500))

/-! ### Statement helpers -/

/-- The standard boolean function of a two-input gate kind, used to state the
gate-truth-table claim (`NOT` uses only its first argument). -/
def gateDenote (t : Ctype) (a b : Bool) : Bool :=
  match t with
  | .AND => a && b
  | .OR => a || b
  | .NOT => !a
  | .NAND => !(a && b)
  | .NOR => !(a || b)
  | .XOR => a != b
  | .XNOR => a == b
  | _ => false

/-- `k` unconditional fixed-point passes, used to characterize `fixLoop`. -/
def iterPass (ev : CircuitModel → SignalMap) (wm : String → Option WireEnd)
    (remaining : List Component) : Nat → SignalMap → SignalMap
  | 0, σ => σ
  | k + 1, σ => iterPass ev wm remaining k (runPass ev wm remaining σ).1

/-- Every TOGGLE of `comps` reads its persisted state at its `:OUT` key. -/
def toggleOK (comps : List Component) (σ : SignalMap) : Prop :=
  ∀ t ∈ comps, t.type = Ctype.TOGGLE → σ (outKey t.id) = some t.props.state

/-- Every key present in `σ` is a `compId:port` key of a live component. -/
def suppOK (comps : List Component) (σ : SignalMap) : Prop :=
  ∀ k, (σ k).isSome → ∃ c ∈ comps, ∃ p, k = toKey c.id p

/-- No component id of the model contains the key separator `':'`
(ids are generated as `'c' +` alphanumerics, so this always holds in
practice; it is what makes `compId:port` keys unambiguous). -/
def colonFreeIds (m : CircuitModel) : Prop :=
  ∀ c ∈ m.components, ':' ∉ c.id.data

/-! ### Concrete circuits used by witnesses and counterexamples -/

/-- A component with the given id, kind and state, at the origin. -/
def mkComp (i : String) (t : Ctype) (st : Bool) : Component :=
  .mk i t 0 0 ⟨st, 0⟩ none

/-- A wire with the given id and endpoints. -/
def mkWire (i fc fp tc tp : String) : Wire :=
  ⟨i, ⟨fc, fp⟩, ⟨tc, tp⟩⟩

/-- Two toggles driving a gate of kind `t` that drives an LED. -/
def gateCircuit (t : Ctype) (a b : Bool) : CircuitModel :=
  .mk [mkComp "t1" .TOGGLE a, mkComp "t2" .TOGGLE b, mkComp "g" t false,
       mkComp "l" .LED false]
      [mkWire "w1" "t1" "OUT" "g" "A", mkWire "w2" "t2" "OUT" "g" "B",
       mkWire "w3" "g" "OUT" "l" "IN"]

/-- A single register holding `true`, with no wires. -/
def regCircuit : CircuitModel := .mk [mkComp "r" .REGISTER true] []

/-- A NOT gate whose only incoming wire is a self-loop. -/
def selfLoopCircuit : CircuitModel :=
  .mk [mkComp "x" .NOT false] [mkWire "w" "x" "OUT" "x" "A"]

/-- Two parallel wires between the same ordered pair of components. -/
def parallelCircuit : CircuitModel :=
  .mk [mkComp "a" .TOGGLE true, mkComp "b" .LED false]
      [mkWire "w1" "a" "OUT" "b" "IN", mkWire "w2" "a" "OUT" "b" "IN"]

/-- A custom-component definition wrapping a single AND gate: two internal
TOGGLEs as `inputPins`, one internal LED as `outputPins`. -/
def andWrapDef : CustomComponentDefinition :=
  .mk "andwrap" ["i0", "i1"] ["l0"]
    (.mk [mkComp "i0" .TOGGLE false, mkComp "i1" .TOGGLE false,
          mkComp "ag" .AND false, mkComp "l0" .LED false]
         [mkWire "v1" "i0" "OUT" "ag" "A", mkWire "v2" "i1" "OUT" "ag" "B",
          mkWire "v3" "ag" "OUT" "l0" "IN"])

/-- Two toggles driving the `IN0`/`IN1` ports of the AND-wrapping custom
component `c`. -/
def customCircuit (a b : Bool) : CircuitModel :=
  .mk [mkComp "t1" .TOGGLE a, mkComp "t2" .TOGGLE b,
       .mk "c" .CUSTOM 0 0 ⟨false, 0⟩ (some andWrapDef)]
      [mkWire "w1" "t1" "OUT" "c" "IN0", mkWire "w2" "t2" "OUT" "c" "IN1"]

/-- Two toggles driving a native AND gate, for the black-box comparison. -/
def nativeAndCircuit (a b : Bool) : CircuitModel :=
  .mk [mkComp "t1" .TOGGLE a, mkComp "t2" .TOGGLE b, mkComp "g" .AND false]
      [mkWire "w1" "t1" "OUT" "g" "A", mkWire "w2" "t2" "OUT" "g" "B"]

/-- A gate whose `A` input is already driven by `s1`, while `s2` is another
available source. -/
def secondDriverCircuit : CircuitModel :=
  .mk [mkComp "s1" .TOGGLE true, mkComp "s2" .TOGGLE true, mkComp "x" .AND false]
      [mkWire "w1" "s1" "OUT" "x" "A"]

/-- A gate whose `A` input is driven by a wire whose source component
(`dead`) is not in the model. -/
def danglingCircuit : CircuitModel :=
  .mk [mkComp "t1" .TOGGLE true, mkComp "x" .AND false]
      [mkWire "w1" "dead" "OUT" "x" "A", mkWire "w2" "t1" "OUT" "x" "B"]

/-- A CLOCK component whose last recorded phase is `400`. -/
def clockComp400 : Component := .mk "k" .CLOCK 0 0 ⟨false, 400⟩ none

/-- A register driven by toggles: `tc -> CLK`, `td -> D`, `te -> EN`. -/
def regWiredCircuit : CircuitModel :=
  .mk [mkComp "tc" .TOGGLE true, mkComp "td" .TOGGLE true,
       mkComp "te" .TOGGLE true, mkComp "r" .REGISTER false]
      [mkWire "u1" "tc" "OUT" "r" "CLK", mkWire "u2" "td" "OUT" "r" "D",
       mkWire "u3" "te" "OUT" "r" "EN"]

/-- A register with `CLK` and `D` wired but `EN` undriven. -/
def regNoEnCircuit : CircuitModel :=
  .mk [mkComp "tc" .TOGGLE true, mkComp "td" .TOGGLE true,
       mkComp "r" .REGISTER false]
      [mkWire "u1" "tc" "OUT" "r" "CLK", mkWire "u2" "td" "OUT" "r" "D"]

/-! ## Theorems -/

theorem withProps_props (c : Component) (p : Props) : (c.withProps p).props = p := by
  cases c; rfl

theorem withProps_id (c : Component) (p : Props) : (c.withProps p).id = c.id := by
  cases c; rfl

theorem withProps_type (c : Component) (p : Props) : (c.withProps p).type = c.type := by
  cases c; rfl

theorem wires_mk (cs : List Component) (ws : List Wire) :
    (CircuitModel.mk cs ws).wires = ws := rfl

theorem components_mk (cs : List Component) (ws : List Wire) :
    (CircuitModel.mk cs ws).components = cs := rfl

/-- C6: the signal map of `evaluate` publishes a REGISTER's output under
`componentId:OUT`, not under `componentId:Q` as the repository's register
documentation and the spec state: for the one-register model the key `r:Q`
is absent while `r:OUT` holds the stored bit.  (The CUSTOM part of the claim
does hold: the custom component's outputs appear under `c:OUT0`.) -/
theorem c6_register_published_under_out :
    evaluate regCircuit (toKey "r" "Q") = none ∧
    evaluate regCircuit (toKey "r" "OUT") = some true ∧
    evaluate (customCircuit true true) (toKey "c" "OUT0") = some true := by
  decide

/-- C7: a self-loop wire is NOT dropped by the dependency-graph construction
(despite the source comment "ignore self edges if any"): for the NOT gate
`x` wired to itself, the edge `x -> x` is added, `x`'s indegree is `1`, and
`x` is consequently missing from the topological order.  The
parallel-wire half of the claim does hold: two parallel wires `a -> b`
collapse to one edge and indegree `1`. -/
theorem c7_selfloop_not_dropped :
    modelAdj selfLoopCircuit "x" = ["x"] ∧
    modelDeg selfLoopCircuit "x" = 1 ∧
    topoOrder selfLoopCircuit = [] ∧
    modelAdj parallelCircuit "a" = ["b"] ∧
    modelDeg parallelCircuit "b" = 1 := by
  decide

/-- C4 counterexample: the CLOCK branch of the stateful update does not flip
`props.state` whenever the phase crosses the half-period boundary.  With the
last recorded phase `400` and wall-clock phase `600` the boundary `500` was
crossed, yet the state is left unchanged (the code only flips when the phase
wraps below `500`). -/
theorem c4_counterexample :
    ¬ ((updateComp 600 [] semp semp clockComp400).props.state =
       (if crossedHalfBoundary clockComp400.props.lastTick (600 % 1000)
        then !clockComp400.props.state else clockComp400.props.state)) := by
  decide

/-- C4 (amended): each call of the stateful update computes the phase as
`now % 1000` and flips `props.state` exactly when the new phase is below
`500` while the last recorded phase was at least `500` (i.e. once per full
1000 ms period, when the phase wraps), recording the new phase in
`props.lastTick`; the state therefore depends on the sampled phase history,
not on wall-clock time alone. -/
theorem c4_clock_flips_on_wrap (now : Nat) (wires : List Wire)
    (σ π : SignalMap) (c : Component) (hc : c.type = Ctype.CLOCK) :
    (updateComp now wires σ π c).props =
      ⟨if now % 1000 < 500 ∧ 500 ≤ c.props.lastTick
        then !c.props.state else c.props.state,
       now % 1000⟩ := by
  unfold updateComp
  simp only [hc]
  by_cases h : now % 1000 < 500 ∧ 500 ≤ c.props.lastTick
  · simp [h, withProps_props]
  · simp [h, withProps_props]

/-- Witness for the amended C4 at a concrete wrap: phase `900 -> 50` flips
the state. -/
theorem c4_clock_flips_on_wrap_witness :
    (updateComp 1050 [] semp semp (Component.mk "k" .CLOCK 0 0 ⟨false, 900⟩ none)).props
      = ⟨true, 50⟩ := by
  have h := c4_clock_flips_on_wrap 1050 [] semp semp
    (Component.mk "k" .CLOCK 0 0 ⟨false, 900⟩ none) rfl
  simpa using h

/-- C9 counterexample: wire creation does not preserve the one-driver
invariant.  `secondDriverCircuit` satisfies it (its only wire drives
`x:A` from `s1`); ending a connection from `s2:OUT` on `x:A` passes the
duplicate check (the source differs) and yields two wires targeting
`(x, A)`. -/
theorem c9_counterexample :
    oneDriverPerInput secondDriverCircuit ∧
    ¬ oneDriverPerInput
        (endConnection secondDriverCircuit "w2" ⟨"s2", "OUT"⟩ "x" "A") := by
  decide

/-- C9 (amended): wire creation preserves the one-driver invariant for every
creation step whose destination port is not already driven from a different
source: it refuses an exact duplicate, and otherwise the destination port
was undriven, so the appended wire is its only driver. -/
theorem c9_endConnection_preserves_one_driver (m : CircuitModel) (wid : String)
    (cfrom : WireEnd) (peComp pePort : String)
    (hinv : oneDriverPerInput m)
    (hfree : ∀ w ∈ m.wires, w.wto = ⟨peComp, pePort⟩ →
       w.wfrom.compId = cfrom.compId ∧ w.wfrom.port = cfrom.port) :
    oneDriverPerInput (endConnection m wid cfrom peComp pePort) := by
  unfold endConnection
  split
  · exact hinv
  · next orig hfind =>
    have h0 := List.find?_some hfind
    have horig : orig.id = peComp := by simpa using h0
    split
    · exact hinv
    · next hany =>
      unfold oneDriverPerInput
      rw [wires_mk, List.pairwise_append]
      refine ⟨hinv, List.pairwise_singleton _ _, ?_⟩
      intro a ha b hb
      simp only [List.mem_singleton] at hb
      subst hb
      intro hEq
      have hto : a.wto = ⟨peComp, pePort⟩ := by rw [hEq, horig]
      obtain ⟨h1, h2⟩ := hfree a ha hto
      have h3 : a.wto.compId = orig.id := by rw [hto, horig]
      have h4 : a.wto.port = pePort := by rw [hto]
      have hfa : (fun w => decide (w.wfrom.compId = cfrom.compId ∧
          w.wfrom.port = cfrom.port ∧
          w.wto.compId = orig.id ∧ w.wto.port = pePort)) a = true :=
        decide_eq_true ⟨h1, h2, h3, h4⟩
      exact hany (List.any_of_mem ha hfa)

/-- Witness for the amended C9: adding a wire onto the undriven port `x:B`
keeps the invariant. -/
theorem c9_endConnection_preserves_one_driver_witness :
    oneDriverPerInput
      (endConnection secondDriverCircuit "w2" ⟨"s2", "OUT"⟩ "x" "B") :=
  c9_endConnection_preserves_one_driver secondDriverCircuit "w2" ⟨"s2", "OUT"⟩
    "x" "B" (by decide) (by decide)

/-- C3: the stateful update of a REGISTER sets `props.state` to the resolved
`D` signal exactly when the resolved `CLK` signal is true in the current
signal map, false in the previous one, and the resolved `EN` signal is true
(`EN` defaulting to true when undriven, the defaults being those of
`resolveIn`); otherwise the component is unchanged.  In particular the
update is the map of `updateComp` over the components, an update with `EN`
resolving false leaves the register untouched (so iterating any number of
ticks with `EN` false never changes the state, regardless of `CLK`), and no
re-capture happens while `CLK` stays high. -/
theorem c3_register_capture (now : Nat) (m : CircuitModel) (σ π : SignalMap)
    (c : Component) (hc : c.type = Ctype.REGISTER) :
    ((updateStatefulComponents now m σ π).components =
        m.components.map (updateComp now m.wires σ π)) ∧
    ((updateComp now m.wires σ π c).props.state =
       (if resolveIn m.wires σ c.id "CLK" false &&
           !resolveIn m.wires π c.id "CLK" false &&
           resolveIn m.wires σ c.id "EN" true
        then resolveIn m.wires σ c.id "D" false
        else c.props.state)) ∧
    (resolveIn m.wires σ c.id "EN" true = false →
       updateComp now m.wires σ π c = c) ∧
    (resolveIn m.wires σ c.id "CLK" false = true →
     resolveIn m.wires π c.id "CLK" false = true →
       updateComp now m.wires σ π c = c) ∧
    (∀ steps : List (SignalMap × SignalMap),
       (∀ s ∈ steps, resolveIn m.wires s.1 c.id "EN" true = false) →
       steps.foldl (fun comp s => updateComp now m.wires s.1 s.2 comp) c = c) := by
  have hbody : ∀ σ' π' : SignalMap, updateComp now m.wires σ' π' c =
      (if resolveIn m.wires σ' c.id "CLK" false &&
          !resolveIn m.wires π' c.id "CLK" false &&
          resolveIn m.wires σ' c.id "EN" true
       then c.withProps { c.props with state := resolveIn m.wires σ' c.id "D" false }
       else c) := by
    intro σ' π'
    unfold updateComp resolveIn
    simp only [hc]
  refine ⟨rfl, ?_, ?_, ?_, ?_⟩
  · rw [hbody]
    by_cases h : (resolveIn m.wires σ c.id "CLK" false &&
        !resolveIn m.wires π c.id "CLK" false &&
        resolveIn m.wires σ c.id "EN" true) = true
    · simp [h, withProps_props]
    · simp only [Bool.not_eq_true] at h
      simp [h, withProps_props]
  · intro hen
    rw [hbody, hen]
    simp
  · intro hclk hpclk
    rw [hbody, hclk, hpclk]
    simp
  · intro steps hens
    induction steps with
    | nil => rfl
    | cons s rest ih =>
      have hen := hens s (List.mem_cons_self s rest)
      simp only [List.foldl_cons]
      rw [hbody, hen]
      simp only [Bool.and_false, Bool.false_eq_true, if_false]
      exact ih (fun s' hs' => hens s' (List.mem_cons_of_mem s hs'))

/-- Witness for C3 at a concrete circuit: with `CLK` rising (previous map
empty), `D = true`, `EN = true`, the register captures `true`; a second
update with `CLK` held high does not re-capture, and with `EN` resolving
false the state never changes. -/
theorem c3_register_capture_witness :
    (updateComp 0 regWiredCircuit.wires (evaluate regWiredCircuit) semp
      (mkComp "r" Ctype.REGISTER false)).props.state = true := by
  have h := c3_register_capture 0 regWiredCircuit (evaluate regWiredCircuit) semp
    (mkComp "r" Ctype.REGISTER false) rfl
  rw [h.2.1]
  decide

/-- C5: the CUSTOM component wrapping a single AND gate (two internal
TOGGLEs as `inputPins` wired to the AND, one internal LED as `outputPins`)
evaluates, for every pair of externally driven inputs, to an `OUT0` signal
equal to their conjunction, identical to a native AND gate.  The
substitution mechanics are as claimed: an internal TOGGLE listed in
`inputPins` has its `props.state` overridden with the corresponding
external value, every other internal component is untouched, and each
`outputPins` LED's internal `:OUT` signal is published as `OUT<i>`. -/
theorem c5_custom_and_blackbox :
    (∀ a b : Bool,
       evaluate (customCircuit a b) (toKey "c" "OUT0") = some (a && b)) ∧
    (∀ a b : Bool,
       sget (evaluate (customCircuit a b)) (toKey "c" "OUT0") =
         sget (evaluate (nativeAndCircuit a b)) (outKey "g")) ∧
    (∀ (d : CustomComponentDefinition) (ext : String → Option Bool)
       (c : Component) (i : Nat), c.type = Ctype.TOGGLE →
       d.inputPins.findIdx? (fun pin => pin = c.id) = some i →
       mapToggleFn d ext c =
         c.withProps { c.props with state := (ext ("IN" ++ Nat.repr i)).getD false }) ∧
    (∀ (d : CustomComponentDefinition) (ext : String → Option Bool)
       (c : Component), c.type ≠ Ctype.TOGGLE → mapToggleFn d ext c = c) ∧
    (∀ (d : CustomComponentDefinition) (ext : String → Option Bool)
       (c : Component),
       d.inputPins.findIdx? (fun pin => pin = c.id) = none →
       mapToggleFn d ext c = c) ∧
    (∀ σ : SignalMap,
       extractOutputsFromLeds andWrapDef σ "OUT0" = some (sget σ (outKey "l0"))) := by
  refine ⟨?_, ?_, ?_, ?_, ?_, ?_⟩
  · intro a b
    cases a <;> cases b <;> decide
  · intro a b
    cases a <;> cases b <;> decide
  · intro d ext c i hT hidx
    unfold mapToggleFn
    rw [if_pos hT, hidx]
  · intro d ext c hT
    unfold mapToggleFn
    rw [if_neg hT]
  · intro d ext c hidx
    unfold mapToggleFn
    rw [hidx]
    split <;> rfl
  · intro σ
    rfl

/-- Witness for C5: the wrapper computes `true && false = false`, and the
substitution overrides internal toggle `i1` (pin index 1) with the external
`IN1` value. -/
theorem c5_custom_and_blackbox_witness :
    evaluate (customCircuit true false) (toKey "c" "OUT0") = some false ∧
    mapToggleFn andWrapDef (fun _ => some true) (mkComp "i1" Ctype.TOGGLE false) =
      (mkComp "i1" Ctype.TOGGLE false).withProps
        { (mkComp "i1" Ctype.TOGGLE false).props with
          state := ((fun _ => some true) ("IN" ++ Nat.repr 1)).getD false } :=
  ⟨c5_custom_and_blackbox.1 true false,
   c5_custom_and_blackbox.2.2.1 andWrapDef (fun _ => some true)
     (mkComp "i1" Ctype.TOGGLE false) 1 rfl (by decide)⟩

/-! ### Key-disjointness infrastructure -/

theorem append_colon_inj (A B P Q : List Char) (hA : ':' ∉ A) (hB : ':' ∉ B)
    (h : A ++ ':' :: P = B ++ ':' :: Q) : A = B ∧ P = Q := by
  induction A generalizing B with
  | nil =>
    cases B with
    | nil => simpa using h
    | cons b B' =>
      simp only [List.nil_append, List.cons_append, List.cons.injEq] at h
      exact absurd (h.1 ▸ List.mem_cons_self b B') hB
  | cons a A' ih =>
    cases B with
    | nil =>
      simp only [List.cons_append, List.nil_append, List.cons.injEq] at h
      exact absurd (h.1 ▸ List.mem_cons_self a A') hA
    | cons b B' =>
      simp only [List.cons_append, List.cons.injEq] at h
      have hA' : ':' ∉ A' := fun hx => hA (List.mem_cons_of_mem a hx)
      have hB' : ':' ∉ B' := fun hx => hB (List.mem_cons_of_mem b hx)
      obtain ⟨h1, h2⟩ := ih B' hA' hB' h.2
      exact ⟨by rw [h.1, h1], h2⟩

theorem toKey_data (a p : String) : (toKey a p).data = a.data ++ ':' :: p.data := by
  unfold toKey
  rw [String.data_append, String.data_append, List.append_assoc]
  rfl

theorem toKey_inj {a b p q : String} (ha : ':' ∉ a.data) (hb : ':' ∉ b.data)
    (h : toKey a p = toKey b q) : a = b ∧ p = q := by
  have hd : (toKey a p).data = (toKey b q).data := by rw [h]
  rw [toKey_data, toKey_data] at hd
  obtain ⟨h1, h2⟩ := append_colon_inj _ _ _ _ ha hb hd
  exact ⟨String.ext h1, String.ext h2⟩

theorem outKey_inj {a b : String} (ha : ':' ∉ a.data) (hb : ':' ∉ b.data)
    (h : outKey a = outKey b) : a = b :=
  (toKey_inj ha hb h).1

/-! ### List and map infrastructure -/

theorem nodup_subset_length {α : Type} [DecidableEq α] {l l' : List α}
    (h : l.Nodup) (hs : l ⊆ l') : l.length ≤ l'.length := by
  have h1 : l.toFinset.card = l.length := List.toFinset_card_of_nodup h
  have h2 : l.toFinset ⊆ l'.toFinset := by
    intro x hx
    simp only [List.mem_toFinset] at hx ⊢
    exact hs hx
  calc l.length = l.toFinset.card := h1.symm
    _ ≤ l'.toFinset.card := Finset.card_le_card h2
    _ ≤ l'.length := l'.toFinset_card_le

theorem nodup_subset_length_eq_mem {α : Type} [DecidableEq α] {l l' : List α}
    (h : l.Nodup) (h' : l'.Nodup) (hs : l ⊆ l') (hlen : l'.length ≤ l.length) :
    ∀ x ∈ l', x ∈ l := by
  have h1 : l.toFinset.card = l.length := List.toFinset_card_of_nodup h
  have h1' : l'.toFinset.card = l'.length := List.toFinset_card_of_nodup h'
  have h2 : l.toFinset ⊆ l'.toFinset := by
    intro x hx
    simp only [List.mem_toFinset] at hx ⊢
    exact hs hx
  have hcard : l'.toFinset.card ≤ l.toFinset.card := by omega
  have : l'.toFinset ⊆ l.toFinset := by
    intro x hx
    exact (Finset.eq_of_subset_of_card_le h2 hcard) ▸ hx
  intro x hx
  have := this (List.mem_toFinset.mpr hx)
  exact List.mem_toFinset.mp this

/-- Two components of a list with no duplicate ids and the same id are equal. -/
theorem eq_of_mem_of_id_eq {comps : List Component}
    (hN : (comps.map Component.id).Nodup) {c1 c2 : Component}
    (h1 : c1 ∈ comps) (h2 : c2 ∈ comps) (hid : c1.id = c2.id) : c1 = c2 := by
  induction comps with
  | nil => cases h1
  | cons c rest ih =>
    rw [List.map_cons, List.nodup_cons] at hN
    cases h1 with
    | head =>
      cases h2 with
      | head => rfl
      | tail _ h2' => exact absurd (hid ▸ List.mem_map_of_mem Component.id h2') hN.1
    | tail _ h1' =>
      cases h2 with
      | head => exact absurd (hid ▸ List.mem_map_of_mem Component.id h1') hN.1
      | tail _ h2' => exact ih hN.2 h1' h2'

theorem compsById_some {comps : List Component} {id : String} {c : Component}
    (h : compsById comps id = some c) : c ∈ comps ∧ c.id = id := by
  unfold compsById at h
  suffices H : ∀ (l : List Component) (m0 : String → Option Component),
      (∀ k c', m0 k = some c' → c' ∈ comps ∧ c'.id = k) → l ⊆ comps →
      ∀ k c', (l.foldl (fun m c'' => fun k' => if k' = c''.id then some c'' else m k') m0) k = some c' →
        c' ∈ comps ∧ c'.id = k by
    exact H comps (fun _ => none) (by intro k c' h'; cases h') (fun x hx => hx) id c h
  intro l
  induction l with
  | nil =>
    intro m0 hm0 _ k c' h'
    exact hm0 k c' h'
  | cons d rest ih =>
    intro m0 hm0 hsub k c' h'
    refine ih _ ?_ (fun x hx => hsub (List.mem_cons_of_mem d hx)) k c' h'
    intro k' c'' h''
    simp only at h''
    by_cases hk : k' = d.id
    · rw [if_pos hk] at h''
      cases h''
      exact ⟨hsub (List.mem_cons_self d rest), hk.symm⟩
    · rw [if_neg hk] at h''
      exact hm0 k' c'' h''

theorem compsById_fold_no_write (l : List Component)
    (m0 : String → Option Component) (k : String) (h : ∀ x ∈ l, x.id ≠ k) :
    (l.foldl (fun m c => fun k' => if k' = c.id then some c else m k') m0) k = m0 k := by
  induction l generalizing m0 with
  | nil => rfl
  | cons d rest ih =>
    simp only [List.foldl_cons]
    rw [ih _ (fun x hx => h x (List.mem_cons_of_mem d hx))]
    rw [if_neg (fun hEq => h d (List.mem_cons_self d rest) hEq.symm)]

theorem compsById_fold_self : ∀ (l : List Component) (m0 : String → Option Component),
    (l.map Component.id).Nodup → ∀ {c : Component}, c ∈ l →
    (l.foldl (fun m c' => fun k' => if k' = c'.id then some c' else m k') m0) c.id = some c := by
  intro l
  induction l with
  | nil => intro m0 _ c h0; cases h0
  | cons d rest ih =>
    intro m0 hN0 c h0
    rw [List.map_cons, List.nodup_cons] at hN0
    simp only [List.foldl_cons]
    cases h0 with
    | head =>
      have hne : ∀ x ∈ rest, x.id ≠ d.id := by
        intro x hx hEq
        exact hN0.1 (hEq ▸ List.mem_map_of_mem Component.id hx)
      rw [compsById_fold_no_write rest _ d.id hne]
      simp
    | tail _ h0' => exact ih _ hN0.2 h0'

theorem compsById_self {comps : List Component}
    (hN : (comps.map Component.id).Nodup) {c : Component} (h : c ∈ comps) :
    compsById comps c.id = some c :=
  compsById_fold_self comps (fun _ => none) hN h

/-! ### Signal-map write tracking -/

theorem sset_eq (σ : SignalMap) (k : String) (v : Bool) : sset σ k v k = some v := by
  unfold sset
  rw [if_pos rfl]

theorem sset_ne (σ : SignalMap) (k : String) (v : Bool) {k' : String}
    (h : k' ≠ k) : sset σ k v k' = σ k' := by
  unfold sset
  rw [if_neg h]

/-- `σ'` may differ from `σ` only by present values at keys of live
components. -/
def writesWithin (comps : List Component) (σ σ' : SignalMap) : Prop :=
  ∀ k, σ' k = σ k ∨ ((σ' k).isSome ∧ ∃ c ∈ comps, ∃ p, k = toKey c.id p)

theorem writesWithin_refl (comps : List Component) (σ : SignalMap) :
    writesWithin comps σ σ := fun _ => Or.inl rfl

theorem writesWithin_trans {comps : List Component} {σ1 σ2 σ3 : SignalMap}
    (h12 : writesWithin comps σ1 σ2) (h23 : writesWithin comps σ2 σ3) :
    writesWithin comps σ1 σ3 := by
  intro k
  cases h23 k with
  | inl h => rw [h]; exact h12 k
  | inr h => exact Or.inr h

theorem writesWithin_isSome {comps : List Component} {σ σ' : SignalMap}
    (h : writesWithin comps σ σ') {k : String} (hk : (σ k).isSome) :
    (σ' k).isSome := by
  cases h k with
  | inl h' => rw [h']; exact hk
  | inr h' => exact h'.1

theorem writesWithin_sset {comps : List Component} {σ : SignalMap}
    {c : Component} (hc : c ∈ comps) (p : String) (v : Bool) :
    writesWithin comps σ (sset σ (toKey c.id p) v) := by
  intro k
  by_cases hk : k = toKey c.id p
  · subst hk
    exact Or.inr ⟨by rw [sset_eq]; rfl, c, hc, p, rfl⟩
  · exact Or.inl (sset_ne σ _ v hk)

theorem writesWithin_portsFold {comps : List Component} {c : Component}
    (hc : c ∈ comps) (g : String → Bool) :
    ∀ (ports : List String) (σ : SignalMap),
    writesWithin comps σ
      (ports.foldl (fun s port => sset s (toKey c.id port) (g port)) σ) := by
  intro ports
  induction ports with
  | nil => intro σ; exact writesWithin_refl comps σ
  | cons p rest ih =>
    intro σ
    simp only [List.foldl_cons]
    exact writesWithin_trans (writesWithin_sset hc p (g p)) (ih _)

theorem computeOutput_writesWithin (ev : CircuitModel → SignalMap)
    (wm : String → Option WireEnd) {comps : List Component} {c : Component}
    (hc : c ∈ comps) (σ : SignalMap) :
    writesWithin comps σ (computeOutput ev wm σ c).2 := by
  unfold computeOutput
  cases c.type <;> try exact writesWithin_refl comps σ
  · -- CUSTOM
    unfold computeCustomComponent
    cases c.customDef with
    | none => exact writesWithin_refl comps σ
    | some d =>
      simp only
      exact writesWithin_portsFold hc _ _ _

theorem topoStep_writesWithin (ev : CircuitModel → SignalMap)
    (wm : String → Option WireEnd) {comps : List Component}
    {cbi : String → Option Component}
    (hcbi : ∀ id c, cbi id = some c → c ∈ comps) (σ : SignalMap) (id : String) :
    writesWithin comps σ (topoStep ev wm cbi σ id) := by
  unfold topoStep
  cases hid : cbi id with
  | none => exact writesWithin_refl comps σ
  | some c =>
    simp only
    exact writesWithin_trans (computeOutput_writesWithin ev wm (hcbi id c hid) σ)
      (writesWithin_sset (hcbi id c hid) "OUT" _)

theorem topoPhase_writesWithin (ev : CircuitModel → SignalMap)
    (wm : String → Option WireEnd) {comps : List Component}
    {cbi : String → Option Component}
    (hcbi : ∀ id c, cbi id = some c → c ∈ comps) :
    ∀ (topo : List String) (σ : SignalMap),
    writesWithin comps σ (topoPhase ev wm cbi topo σ) := by
  intro topo
  induction topo with
  | nil => intro σ; exact writesWithin_refl comps σ
  | cons id rest ih =>
    intro σ
    unfold topoPhase at *
    simp only [List.foldl_cons]
    exact writesWithin_trans (topoStep_writesWithin ev wm hcbi σ id) (ih _)

theorem passStep_fst_writesWithin (ev : CircuitModel → SignalMap)
    (wm : String → Option WireEnd) {comps : List Component} {c : Component}
    (hc : c ∈ comps) (σ : SignalMap) (b : Bool) :
    writesWithin comps σ (passStep ev wm (σ, b) c).1 := by
  unfold passStep
  split
  · exact computeOutput_writesWithin ev wm hc σ
  · exact writesWithin_trans (computeOutput_writesWithin ev wm hc σ)
      (writesWithin_sset hc "OUT" _)

theorem passFold_fst_writesWithin (ev : CircuitModel → SignalMap)
    (wm : String → Option WireEnd) {comps : List Component} :
    ∀ (rem : List Component), (∀ c ∈ rem, c ∈ comps) →
    ∀ (σ : SignalMap) (b : Bool),
    writesWithin comps σ (rem.foldl (passStep ev wm) (σ, b)).1 := by
  intro rem
  induction rem with
  | nil => intro _ σ b; exact writesWithin_refl comps σ
  | cons c rest ih =>
    intro hsub σ b
    simp only [List.foldl_cons]
    have hcc : c ∈ comps := hsub c (List.mem_cons_self c rest)
    have hrest := ih (fun x hx => hsub x (List.mem_cons_of_mem c hx))
    have hpair : passStep ev wm (σ, b) c =
        ((passStep ev wm (σ, b) c).1, (passStep ev wm (σ, b) c).2) := rfl
    rw [hpair]
    exact writesWithin_trans (passStep_fst_writesWithin ev wm hcc σ b) (hrest _ _)

theorem runPass_fst_writesWithin (ev : CircuitModel → SignalMap)
    (wm : String → Option WireEnd) {comps : List Component}
    {rem : List Component} (hsub : ∀ c ∈ rem, c ∈ comps) (σ : SignalMap) :
    writesWithin comps σ (runPass ev wm rem σ).1 :=
  passFold_fst_writesWithin ev wm rem hsub σ false

theorem fixLoop_writesWithin (ev : CircuitModel → SignalMap)
    (wm : String → Option WireEnd) {comps : List Component}
    {rem : List Component} (hsub : ∀ c ∈ rem, c ∈ comps) :
    ∀ (fuel : Nat) (σ : SignalMap),
    writesWithin comps σ (fixLoop ev wm rem fuel σ) := by
  intro fuel
  induction fuel with
  | zero => intro σ; exact writesWithin_refl comps σ
  | succ f ih =>
    intro σ
    unfold fixLoop
    split
    · exact writesWithin_trans (runPass_fst_writesWithin ev wm hsub σ) (ih _)
    · exact runPass_fst_writesWithin ev wm hsub σ

theorem initSignals_writesWithin (m : CircuitModel) :
    writesWithin m.components semp (initSignals m) := by
  unfold initSignals
  suffices H : ∀ (l : List Component), (∀ c ∈ l, c ∈ m.components) → ∀ σ,
      writesWithin m.components σ
        (l.foldl (fun σ c => sset σ (outKey c.id)
          (if c.type = Ctype.TOGGLE ∨ c.type = Ctype.CLOCK then c.props.state else false)) σ) by
    exact H m.components (fun _ hx => hx) semp
  intro l
  induction l with
  | nil => intro _ σ; exact writesWithin_refl m.components σ
  | cons c rest ih =>
    intro hsub σ
    simp only [List.foldl_cons]
    exact writesWithin_trans
      (writesWithin_sset (hsub c (List.mem_cons_self c rest)) "OUT" _)
      (ih (fun x hx => hsub x (List.mem_cons_of_mem c hx)) _)

theorem remainingComps_subset (m : CircuitModel) :
    ∀ c ∈ remainingComps m, c ∈ m.components := by
  intro c hc
  exact List.mem_of_mem_filter hc

theorem evaluate_eq_evalBody (m : CircuitModel) :
    evaluate m = evalBody (evaluateFuel m.mdepth) m := rfl

theorem evalBody_writesWithin (ev : CircuitModel → SignalMap) (m : CircuitModel) :
    writesWithin m.components (initSignals m) (evalBody ev m) := by
  unfold evalBody
  have hcbi : ∀ id c, compsById m.components id = some c → c ∈ m.components :=
    fun id c h => (compsById_some h).1
  have h1 := topoPhase_writesWithin ev (buildWireMap m.wires) hcbi (topoOrder m) (initSignals m)
  split
  · exact writesWithin_trans h1
      (fixLoop_writesWithin ev (buildWireMap m.wires) (remainingComps_subset m) 100 _)
  · exact h1

theorem evaluate_writesWithin_init (m : CircuitModel) :
    writesWithin m.components (initSignals m) (evaluate m) := by
  rw [evaluate_eq_evalBody]
  exact evalBody_writesWithin (evaluateFuel m.mdepth) m

theorem evaluate_writesWithin_empty (m : CircuitModel) :
    writesWithin m.components semp (evaluate m) :=
  writesWithin_trans (initSignals_writesWithin m) (evaluate_writesWithin_init m)

theorem initSignals_isSome (m : CircuitModel) {c : Component}
    (hc : c ∈ m.components) : (initSignals m (outKey c.id)).isSome := by
  unfold initSignals
  suffices H : ∀ (l : List Component) (σ : SignalMap),
      c ∈ l ∨ (σ (outKey c.id)).isSome →
      ((l.foldl (fun σ c' => sset σ (outKey c'.id)
        (if c'.type = Ctype.TOGGLE ∨ c'.type = Ctype.CLOCK then c'.props.state else false)) σ)
          (outKey c.id)).isSome by
    exact H m.components semp (Or.inl hc)
  intro l
  induction l with
  | nil =>
    intro σ h
    cases h with
    | inl h => cases h
    | inr h => exact h
  | cons d rest ih =>
    intro σ h
    simp only [List.foldl_cons]
    refine ih _ ?_
    cases h with
    | inl h =>
      cases h with
      | head =>
        right
        rw [sset_eq]
        rfl
      | tail _ h' => exact Or.inl h'
    | inr h =>
      right
      by_cases hk : outKey c.id = outKey d.id
      · rw [hk, sset_eq]; rfl
      · rw [sset_ne _ _ _ hk]; exact h

theorem extractOutputs_val {d : CustomComponentDefinition} {σ : SignalMap}
    {k : String} {v : Bool} (h : extractOutputsFromLeds d σ k = some v) :
    ∃ pin ∈ d.outputPins, v = sget σ (outKey pin) := by
  unfold extractOutputsFromLeds at h
  suffices H : ∀ (l : List (Nat × String)) (m0 : String → Option Bool),
      (∀ p ∈ l, p.2 ∈ d.outputPins) →
      (∀ k' v', m0 k' = some v' → ∃ pin ∈ d.outputPins, v' = sget σ (outKey pin)) →
      ∀ k' v', (l.foldl (fun m p => fun k'' =>
        if k'' = "OUT" ++ Nat.repr p.1 then some (sget σ (outKey p.2)) else m k'') m0) k' = some v' →
      ∃ pin ∈ d.outputPins, v' = sget σ (outKey pin) by
    exact H d.outputPins.enum (fun _ => none)
      (fun p hp => List.snd_mem_of_mem_enum hp)
      (fun k' v' h' => by cases h') k v h
  intro l
  induction l with
  | nil => intro m0 _ hm0 k' v' h'; exact hm0 k' v' h'
  | cons p rest ih =>
    intro m0 hl hm0 k' v' h'
    refine ih _ (fun q hq => hl q (List.mem_cons_of_mem p hq)) ?_ k' v' h'
    intro k'' v'' h''
    simp only at h''
    by_cases hk : k'' = "OUT" ++ Nat.repr p.1
    · rw [if_pos hk] at h''
      cases h''
      exact ⟨p.2, hl p (List.mem_cons_self p rest), rfl⟩
    · rw [if_neg hk] at h''
      exact hm0 k'' v'' h''

theorem extractOutputs_isSome {d : CustomComponentDefinition} {σ : SignalMap}
    {i : Nat} {pin : String} (h : (i, pin) ∈ d.outputPins.enum) :
    (extractOutputsFromLeds d σ ("OUT" ++ Nat.repr i)).isSome := by
  unfold extractOutputsFromLeds
  suffices H : ∀ (l : List (Nat × String)) (m0 : String → Option Bool),
      ((i, pin) ∈ l ∨ (m0 ("OUT" ++ Nat.repr i)).isSome) →
      ((l.foldl (fun m p => fun k'' =>
        if k'' = "OUT" ++ Nat.repr p.1 then some (sget σ (outKey p.2)) else m k'') m0)
          ("OUT" ++ Nat.repr i)).isSome by
    exact H d.outputPins.enum (fun _ => none) (Or.inl h)
  intro l
  induction l with
  | nil =>
    intro m0 h0
    cases h0 with
    | inl h0 => cases h0
    | inr h0 => exact h0
  | cons p rest ih =>
    intro m0 h0
    simp only [List.foldl_cons]
    refine ih _ ?_
    cases h0 with
    | inl h0 =>
      cases h0 with
      | head =>
        right
        rw [if_pos rfl]
        rfl
      | tail _ h0' => exact Or.inl h0'
    | inr h0 =>
      right
      by_cases hk : ("OUT" ++ Nat.repr i) = "OUT" ++ Nat.repr p.1
      · rw [if_pos hk]; rfl
      · rw [if_neg hk]; exact h0

/-- C10: for every circuit model and every component `c` in it, of any kind,
the signal map returned by `evaluate` contains the key `c.id ++ ":OUT"`.
Furthermore the custom-component expander reads each internal LED's output
exactly at that `ledId:OUT` key (every published `OUTi` value it produces is
the `:OUT` signal of some `outputPins` LED, and each listed pin index is
published), even though the port resolver reports that an LED exposes no
output ports. -/
theorem c10_every_component_has_out_key (m : CircuitModel) (c : Component)
    (hc : c ∈ m.components) :
    ((evaluate m) (outKey c.id)).isSome ∧
    (∀ cL : Component, cL.type = Ctype.LED → getComponentOutputPorts cL = []) ∧
    (∀ (d : CustomComponentDefinition) (σ : SignalMap) (i : Nat) (pin : String),
       (i, pin) ∈ d.outputPins.enum →
       (extractOutputsFromLeds d σ ("OUT" ++ Nat.repr i)).isSome) ∧
    (∀ (d : CustomComponentDefinition) (σ : SignalMap) (k : String) (v : Bool),
       extractOutputsFromLeds d σ k = some v →
       ∃ pin ∈ d.outputPins, v = sget σ (outKey pin)) := by
  refine ⟨?_, ?_, ?_, ?_⟩
  · exact writesWithin_isSome (evaluate_writesWithin_init m) (initSignals_isSome m hc)
  · intro cL hL
    unfold getComponentOutputPorts
    rw [if_neg (fun hcu => by rw [hL] at hcu; cases hcu.1)]
    rw [if_neg (fun hne => hne hL)]
  · intro d σ i pin h
    exact extractOutputs_isSome h
  · intro d σ k v h
    exact extractOutputs_val h

/-- Witness for C10 at a concrete model: the LED `l` of the AND circuit has
an `l:OUT` entry in the evaluated signal map. -/
theorem c10_every_component_has_out_key_witness :
    ((evaluate (gateCircuit Ctype.AND true true)) (outKey "l")).isSome ∧
    getComponentOutputPorts (mkComp "l" Ctype.LED false) = [] := by
  have h := c10_every_component_has_out_key (gateCircuit Ctype.AND true true)
    (mkComp "l" Ctype.LED false)
    (List.Mem.tail _ (List.Mem.tail _ (List.Mem.tail _ (List.Mem.head _))))
  exact ⟨h.1, h.2.1 (mkComp "l" Ctype.LED false) rfl⟩

theorem evaluate_suppOK (m : CircuitModel) : suppOK m.components (evaluate m) := by
  intro k hk
  cases evaluate_writesWithin_empty m k with
  | inl h => rw [h] at hk; cases hk
  | inr h => exact h.2

/-- C8: an input port reads `false` during evaluation when no wire targets
it, and also when the targeting wire's source component has been deleted
from the model (its key can never be written, since every written key
belongs to a live component); the single exception is a REGISTER's `EN`
input, which the stateful update treats as `true` when undriven, so the
capture condition degenerates to the bare rising edge. -/
theorem c8_undriven_input_reads_false (m : CircuitModel)
    (hcol : ∀ c ∈ m.components, ':' ∉ c.id.data) :
    (∀ (wires : List Wire) (σ : SignalMap) (cid p : String),
       buildWireMap wires (toKey cid p) = none →
       inputOf (buildWireMap wires) σ cid p = false) ∧
    (∀ (cid p : String) (w : WireEnd),
       buildWireMap m.wires (toKey cid p) = some w →
       ':' ∉ w.compId.data →
       (∀ c ∈ m.components, c.id ≠ w.compId) →
       inputOf (buildWireMap m.wires) (evaluate m) cid p = false) ∧
    (∀ (now : Nat) (wires : List Wire) (σ π : SignalMap) (c : Component),
       c.type = Ctype.REGISTER →
       wires.find? (fun w => w.wto.compId = c.id ∧ w.wto.port = "EN") = none →
       updateComp now wires σ π c =
         (if resolveIn wires σ c.id "CLK" false &&
             !resolveIn wires π c.id "CLK" false
          then c.withProps { c.props with state := resolveIn wires σ c.id "D" false }
          else c)) := by
  refine ⟨?_, ?_, ?_⟩
  · intro wires σ cid p h
    unfold inputOf
    rw [h]
  · intro cid p w hwm hcolw hdead
    unfold inputOf
    rw [hwm]
    have hnone : (evaluate m) w.key = none := by
      cases hval : (evaluate m) w.key with
      | none => rfl
      | some v =>
        have hS : ((evaluate m) w.key).isSome := by rw [hval]; rfl
        obtain ⟨c, hc, p', hkey⟩ := evaluate_suppOK m w.key hS
        have : w.compId = c.id ∧ w.port = p' := toKey_inj hcolw (hcol c hc) hkey
        exact absurd this.1.symm (hdead c hc)
    show sget (evaluate m) w.key = false
    unfold sget
    rw [hnone]
    rfl
  · intro now wires σ π c hc hfind
    unfold updateComp resolveIn
    simp only [hc, hfind, Bool.and_true]

/-- Witness for C8: in `danglingCircuit` the wire into `x:A` comes from the
deleted component `dead`, so `x`'s `A` input reads `false`; and an entirely
unwired port also reads `false`. -/
theorem c8_undriven_input_reads_false_witness :
    inputOf (buildWireMap danglingCircuit.wires) (evaluate danglingCircuit)
      "x" "A" = false ∧
    inputOf (buildWireMap danglingCircuit.wires) (evaluate danglingCircuit)
      "x" "Z" = false := by
  have h := c8_undriven_input_reads_false danglingCircuit (by decide)
  exact ⟨h.2.1 "x" "A" ⟨"dead", "OUT"⟩ (by decide) (by decide) (by decide),
         h.1 danglingCircuit.wires (evaluate danglingCircuit) "x" "Z" (by decide)⟩

/-! ### Insertion-ordered key sets -/

theorem insKeys_fold_nodup : ∀ (l acc : List String), acc.Nodup →
    (l.foldl (fun acc i => if i ∈ acc then acc else acc ++ [i]) acc).Nodup := by
  intro l
  induction l with
  | nil => intro acc h; exact h
  | cons a rest ih =>
    intro acc h
    simp only [List.foldl_cons]
    by_cases ha : a ∈ acc
    · rw [if_pos ha]; exact ih acc h
    · rw [if_neg ha]
      refine ih _ (List.Nodup.append h (List.nodup_singleton a) ?_)
      intro x hx hx'
      rw [List.mem_singleton] at hx'
      exact ha (hx' ▸ hx)

theorem insKeys_fold_mem : ∀ (l acc : List String) (x : String),
    (x ∈ l.foldl (fun acc i => if i ∈ acc then acc else acc ++ [i]) acc ↔
      x ∈ acc ∨ x ∈ l) := by
  intro l
  induction l with
  | nil => intro acc x; simp
  | cons a rest ih =>
    intro acc x
    simp only [List.foldl_cons]
    by_cases ha : a ∈ acc
    · rw [if_pos ha, ih]
      rw [List.mem_cons]
      constructor
      · rintro (h | h)
        · exact Or.inl h
        · exact Or.inr (Or.inr h)
      · rintro (h | h | h)
        · exact Or.inl h
        · exact Or.inl (h ▸ ha)
        · exact Or.inr h
    · rw [if_neg ha, ih]
      rw [List.mem_append, List.mem_singleton, List.mem_cons]
      constructor
      · rintro ((h | h) | h)
        · exact Or.inl h
        · exact Or.inr (Or.inl h)
        · exact Or.inr (Or.inr h)
      · rintro (h | h | h)
        · exact Or.inl (Or.inl h)
        · exact Or.inl (Or.inr h)
        · exact Or.inr h

theorem insKeys_fold_len : ∀ (l acc : List String),
    (l.foldl (fun acc i => if i ∈ acc then acc else acc ++ [i]) acc).length ≤
      acc.length + l.length := by
  intro l
  induction l with
  | nil => intro acc; simp
  | cons a rest ih =>
    intro acc
    simp only [List.foldl_cons, List.length_cons]
    by_cases ha : a ∈ acc
    · rw [if_pos ha]
      have := ih acc
      omega
    · rw [if_neg ha]
      have := ih (acc ++ [a])
      simp only [List.length_append, List.length_singleton] at this
      omega

theorem insKeys_nodup (l : List String) : (insKeys l).Nodup :=
  insKeys_fold_nodup l [] List.nodup_nil

theorem mem_insKeys {l : List String} {x : String} : x ∈ insKeys l ↔ x ∈ l := by
  unfold insKeys
  rw [insKeys_fold_mem]
  simp

theorem insKeys_length_le (l : List String) : (insKeys l).length ≤ l.length := by
  have := insKeys_fold_len l []
  simpa using this

/-! ### Counting helpers -/

theorem countP_update_true {l : List String} (hN : l.Nodup) {a : String}
    (ha : a ∈ l) {p q : String → Bool} (hpa : p a = false) (hqa : q a = true)
    (hother : ∀ b ∈ l, b ≠ a → q b = p b) :
    l.countP q = l.countP p + 1 := by
  induction l with
  | nil => cases ha
  | cons c rest ih =>
    rw [List.nodup_cons] at hN
    rw [List.countP_cons, List.countP_cons]
    cases ha with
    | head =>
      have hrest : rest.countP q = rest.countP p := by
        refine List.countP_congr ?_
        intro b hb
        have hba : b ≠ a := fun hEq => hN.1 (hEq ▸ hb)
        rw [hother b (List.mem_cons_of_mem a hb) hba]
      rw [hrest, hpa, hqa]
      simp
    | tail _ ha' =>
      have hca : c ≠ a := fun hEq => hN.1 (hEq ▸ ha')
      rw [hother c (List.mem_cons_self c rest) hca]
      rw [ih hN.2 ha' (fun b hb hba => hother b (List.mem_cons_of_mem c hb) hba)]
      by_cases hpc : p c = true <;> simp [hpc]

theorem countP_strict {t keys : List String} (htN : t.Nodup) (hkN : keys.Nodup)
    (hsub : ∀ x ∈ t, x ∈ keys) {a : String} (haK : a ∈ keys) (haT : a ∉ t)
    {pred : String → Bool} (hpa : pred a = true) :
    t.countP pred < keys.countP pred := by
  rw [List.countP_eq_length_filter, List.countP_eq_length_filter]
  have h1 : (t.filter pred).toFinset.card = (t.filter pred).length :=
    List.toFinset_card_of_nodup (htN.filter pred)
  have h2 : (keys.filter pred).toFinset.card = (keys.filter pred).length :=
    List.toFinset_card_of_nodup (hkN.filter pred)
  have hsubF : (t.filter pred).toFinset ⊆ (keys.filter pred).toFinset := by
    intro x hx
    rw [List.mem_toFinset, List.mem_filter] at hx
    rw [List.mem_toFinset, List.mem_filter]
    exact ⟨hsub x hx.1, hx.2⟩
  have haIn : a ∈ (keys.filter pred).toFinset := by
    rw [List.mem_toFinset, List.mem_filter]
    exact ⟨haK, hpa⟩
  have haOut : a ∉ (t.filter pred).toFinset := by
    rw [List.mem_toFinset, List.mem_filter]
    exact fun h => haT h.1
  have hcard : (t.filter pred).toFinset.card < (keys.filter pred).toFinset.card :=
    Finset.card_lt_card ⟨hsubF, fun hsup => haOut (hsup haIn)⟩
  omega

/-! ### Dependency-graph characterization -/

/-- The invariant of the graph-construction fold: neighbor lists are
duplicate-free, edges connect only existing components, and the indegree of
`x` counts its in-edges in the deduplicated graph. -/
def graphInv (ids : List String) (g : (String → List String) × (String → Nat)) : Prop :=
  (∀ p, (g.1 p).Nodup) ∧ (∀ p x, x ∈ g.1 p → p ∈ ids ∧ x ∈ ids) ∧
  (∀ x, g.2 x = (insKeys ids).countP (fun p => decide (x ∈ g.1 p)))

theorem buildGraph_inv (ids : List String) (wires : List Wire) :
    graphInv ids (buildGraph ids wires) := by
  unfold buildGraph
  suffices H : ∀ (ws : List Wire) (g : (String → List String) × (String → Nat)),
      graphInv ids g →
      graphInv ids (ws.foldl (fun g w =>
        if w.wfrom.compId ∈ ids ∧ w.wto.compId ∈ ids then
          if w.wto.compId ∈ g.1 w.wfrom.compId then g
          else
            (fun p => if p = w.wfrom.compId then g.1 p ++ [w.wto.compId] else g.1 p,
             fun x => if x = w.wto.compId then g.2 x + 1 else g.2 x)
        else g) g) by
    refine H wires (fun _ => [], fun _ => 0) ⟨fun _ => List.nodup_nil, ?_, ?_⟩
    · intro p x hx; cases hx
    · intro x
      simp
  intro ws
  induction ws with
  | nil => intro g h; exact h
  | cons w rest ih =>
    intro g hg
    simp only [List.foldl_cons]
    refine ih _ ?_
    by_cases h1 : w.wfrom.compId ∈ ids ∧ w.wto.compId ∈ ids
    · rw [if_pos h1]
      by_cases h2 : w.wto.compId ∈ g.1 w.wfrom.compId
      · rw [if_pos h2]; exact hg
      · rw [if_neg h2]
        obtain ⟨hgN, hgM, hgC⟩ := hg
        refine ⟨?_, ?_, ?_⟩
        · intro p
          by_cases hp : p = w.wfrom.compId
          · simp only [hp, if_pos rfl]
            exact List.Nodup.append (hgN _) (List.nodup_singleton _)
              (by intro x hx hx'
                  rw [List.mem_singleton] at hx'
                  exact h2 (hx' ▸ hx))
          · simp only [if_neg hp]
            exact hgN p
        · intro p x hx
          by_cases hp : p = w.wfrom.compId
          · subst hp
            simp only [eq_self_iff_true, if_true, List.mem_append,
              List.mem_singleton] at hx
            cases hx with
            | inl hx => exact hgM w.wfrom.compId x hx
            | inr hx => exact ⟨h1.1, hx ▸ h1.2⟩
          · simp only [if_neg hp] at hx
            exact hgM p x hx
        · intro x
          by_cases hx : x = w.wto.compId
          · simp only [hx, if_pos rfl]
            rw [hgC w.wto.compId]
            refine (countP_update_true (insKeys_nodup ids)
              (mem_insKeys.mpr h1.1) ?_ ?_ ?_).symm
            · exact decide_eq_false h2
            · exact decide_eq_true (by
                rw [if_pos rfl]
                exact List.mem_append_right _ (List.mem_singleton.mpr rfl))
            · intro b _ hb
              simp only [if_neg hb]
          · simp only [if_neg hx]
            rw [hgC x]
            refine List.countP_congr ?_
            intro p _
            by_cases hp : p = w.wfrom.compId
            · subst hp
              simp only [eq_self_iff_true, if_true]
              constructor
              · intro h
                have := of_decide_eq_true h
                exact decide_eq_true (List.mem_append_left _ this)
              · intro h
                have := of_decide_eq_true h
                rw [List.mem_append, List.mem_singleton] at this
                cases this with
                | inl h' => exact decide_eq_true h'
                | inr h' => exact absurd h' hx
            · simp only [if_neg hp]
    · rw [if_neg h1]; exact hg

/-! ### Kahn's algorithm invariants -/

theorem processNbrs_fold_spec : ∀ (nbrs : List String) (deg : String → Nat)
    (acc : List String),
    nbrs.Nodup → (∀ x ∈ nbrs, 1 ≤ deg x) →
    (nbrs.foldl (fun (s : (String → Nat) × List String) (nbr : String) =>
        ((fun x => if x = nbr then s.1 nbr - 1 else s.1 x),
         if s.1 nbr - 1 = 0 then s.2 ++ [nbr] else s.2)) ((deg, acc) : (String → Nat) × List String)) =
      ((fun x => if x ∈ nbrs then deg x - 1 else deg x),
       acc ++ nbrs.filter (fun x => decide (deg x = 1))) := by
  intro nbrs
  induction nbrs with
  | nil =>
    intro deg acc _ _
    simp
  | cons n rest ih =>
    intro deg acc hN hge
    rw [List.nodup_cons] at hN
    simp only [List.foldl_cons]
    have hge' : ∀ x ∈ rest, 1 ≤ (if x = n then deg n - 1 else deg x) := by
      intro x hx
      have hxn : ¬ (x = n) := fun hEq => hN.1 (hEq ▸ hx)
      rw [if_neg hxn]
      exact hge x (List.mem_cons_of_mem n hx)
    have hmain := ih (fun x => if x = n then deg n - 1 else deg x)
        (if deg n - 1 = 0 then acc ++ [n] else acc) hN.2 hge'
    refine Eq.trans hmain ?_
    simp only [Prod.mk.injEq]
    constructor
    · funext x
      by_cases hxr : x ∈ rest
      · have hxn : ¬ (x = n) := fun hEq => hN.1 (hEq ▸ hxr)
        rw [if_pos hxr, if_neg hxn, if_pos (List.mem_cons_of_mem n hxr)]
      · by_cases hxn : x = n
        · subst hxn
          rw [if_neg hN.1, if_pos rfl, if_pos (List.mem_cons_self x rest)]
        · rw [if_neg hxr, if_neg hxn, if_neg (by
            intro h
            cases h with
            | head => exact hxn rfl
            | tail _ h' => exact hxr h')]
    · have hfilter : rest.filter (fun x => decide ((if x = n then deg n - 1 else deg x) = 1)) =
          rest.filter (fun x => decide (deg x = 1)) := by
        refine List.filter_congr ?_
        intro x hx
        have hxn : ¬ (x = n) := fun hEq => hN.1 (hEq ▸ hx)
        rw [if_neg hxn]
      rw [hfilter]
      rw [List.filter_cons]
      have hn1 : 1 ≤ deg n := hge n (List.mem_cons_self n rest)
      by_cases hz : deg n - 1 = 0
      · have : deg n = 1 := by omega
        rw [if_pos hz, if_pos (decide_eq_true this)]
        simp
      · have : ¬ deg n = 1 := by omega
        rw [if_neg hz, if_neg (by simpa using this)]

theorem processNbrs_spec (nbrs : List String) (deg : String → Nat)
    (hN : nbrs.Nodup) (hge : ∀ x ∈ nbrs, 1 ≤ deg x) :
    processNbrs nbrs deg =
      ((fun x => if x ∈ nbrs then deg x - 1 else deg x),
       nbrs.filter (fun x => decide (deg x = 1))) := by
  have H := processNbrs_fold_spec nbrs deg [] hN hge
  exact H.trans (by simp)

/-- The Kahn loop invariant: popped ids (`t`) and queued ids (`q`) are
pairwise distinct map keys with (current) indegree zero, and every node's
current indegree is its in-edge count minus its already-popped
predecessors. -/
def kahnInv (adj : String → List String) (keys t q : List String)
    (deg : String → Nat) : Prop :=
  (t ++ q).Nodup ∧ (∀ x ∈ t ++ q, x ∈ keys) ∧
  (∀ x, deg x + t.countP (fun p => decide (x ∈ adj p)) =
    keys.countP (fun p => decide (x ∈ adj p))) ∧
  (∀ x ∈ t ++ q, deg x = 0)

theorem kahn_step {adj : String → List String} {keys : List String}
    (hkN : keys.Nodup) {t rest : List String} {deg : String → Nat} {p : String}
    (hinv : kahnInv adj keys t (p :: rest) deg)
    (hadjN : (adj p).Nodup) (hadjK : ∀ q x, x ∈ adj q → x ∈ keys) :
    kahnInv adj keys (t ++ [p]) (rest ++ (processNbrs (adj p) deg).2)
      (processNbrs (adj p) deg).1 := by
  obtain ⟨hN, hK, hC, hZ⟩ := hinv
  have hp_mem : p ∈ t ++ p :: rest := List.mem_append_right t (List.mem_cons_self p rest)
  have hpK : p ∈ keys := hK p hp_mem
  have hpdeg : deg p = 0 := hZ p hp_mem
  have htN : t.Nodup := (List.nodup_append.mp hN).1
  have hqN : (p :: rest).Nodup := (List.nodup_append.mp hN).2.1
  have hdisj : t.Disjoint (p :: rest) := (List.nodup_append.mp hN).2.2
  have hp_not_t : p ∉ t := fun h => hdisj h (List.mem_cons_self p rest)
  have htK : ∀ x ∈ t, x ∈ keys := fun x hx => hK x (List.mem_append_left _ hx)
  have hge : ∀ x ∈ adj p, 1 ≤ deg x := by
    intro x hx
    have hcnt := hC x
    have hlt : t.countP (fun p' => decide (x ∈ adj p')) <
        keys.countP (fun p' => decide (x ∈ adj p')) :=
      countP_strict htN hkN htK hpK hp_not_t (decide_eq_true hx)
    omega
  rw [processNbrs_spec (adj p) deg hadjN hge]
  simp only
  set pushes := (adj p).filter (fun x => decide (deg x = 1)) with hpushes
  have hpush_mem : ∀ x ∈ pushes, x ∈ adj p ∧ deg x = 1 := by
    intro x hx
    rw [hpushes, List.mem_filter] at hx
    exact ⟨hx.1, of_decide_eq_true hx.2⟩
  have hpush_fresh : ∀ x ∈ pushes, x ∉ t ++ p :: rest := by
    intro x hx hmem
    have := hZ x hmem
    have := (hpush_mem x hx).2
    omega
  refine ⟨?_, ?_, ?_, ?_⟩
  · -- Nodup (t ++ [p] ++ (rest ++ pushes))
    have hrearr : t ++ [p] ++ (rest ++ pushes) = (t ++ p :: rest) ++ pushes := by
      simp
    rw [hrearr]
    refine List.Nodup.append hN (List.Nodup.filter _ hadjN) ?_
    intro x hx hx'
    exact hpush_fresh x hx' hx
  · intro x hx
    rw [show t ++ [p] ++ (rest ++ pushes) = (t ++ p :: rest) ++ pushes by simp] at hx
    rw [List.mem_append] at hx
    cases hx with
    | inl hx => exact hK x hx
    | inr hx => exact hadjK p x (hpush_mem x hx).1
  · intro x
    have hcnt := hC x
    rw [List.countP_append, List.countP_cons, List.countP_nil]
    simp only []
    by_cases hx : x ∈ adj p
    · rw [if_pos (decide_eq_true hx), if_pos hx]
      have := hge x hx
      omega
    · have hd : ¬ (decide (x ∈ adj p) = true) := by simpa using hx
      rw [if_neg hx, if_neg hd]
      omega
  · intro x hx
    rw [show t ++ [p] ++ (rest ++ pushes) = (t ++ p :: rest) ++ pushes by simp] at hx
    rw [List.mem_append] at hx
    simp only []
    cases hx with
    | inl hx =>
      have hz := hZ x hx
      have hxa : x ∉ adj p := fun h => by
        have := hge x h
        omega
      rw [if_neg hxa]
      exact hz
    | inr hx =>
      obtain ⟨hxa, hx1⟩ := hpush_mem x hx
      rw [if_pos hxa]
      omega

theorem kahn_loop_inv {adj : String → List String} {keys : List String}
    (hkN : keys.Nodup) (hadjN : ∀ p, (adj p).Nodup)
    (hadjK : ∀ q x, x ∈ adj q → x ∈ keys) :
    ∀ (fuel : Nat) (q t : List String) (deg : String → Nat),
    kahnInv adj keys t q deg → keys.length + 1 ≤ fuel + t.length →
    (kahnLoop fuel adj deg q t).2.1 = [] ∧
    kahnInv adj keys (kahnLoop fuel adj deg q t).1 []
      (kahnLoop fuel adj deg q t).2.2 := by
  intro fuel
  induction fuel with
  | zero =>
    intro q t deg hinv hfuel
    exfalso
    have h1 : (t ++ q).length ≤ keys.length :=
      nodup_subset_length hinv.1 (fun x hx => hinv.2.1 x hx)
    rw [List.length_append] at h1
    omega
  | succ f ih =>
    intro q t deg hinv hfuel
    cases q with
    | nil =>
      exact ⟨rfl, by simpa using hinv⟩
    | cons p rest =>
      have hstep := kahn_step hkN hinv (hadjN p) hadjK
      have hlen : (t ++ [p]).length = t.length + 1 := by simp
      have := ih (rest ++ (processNbrs (adj p) deg).2) (t ++ [p])
        (processNbrs (adj p) deg).1 hstep (by omega)
      exact this

theorem kahnInv_init (m : CircuitModel) :
    kahnInv (modelAdj m) (modelKeys m) [] (initQueue m) (modelDeg m) := by
  obtain ⟨hgN, hgM, hgC⟩ := buildGraph_inv (modelIds m) m.wires
  refine ⟨?_, ?_, ?_, ?_⟩
  · rw [List.nil_append]
    exact List.Nodup.filter _ (insKeys_nodup (modelIds m))
  · intro x hx
    rw [List.nil_append] at hx
    exact List.mem_of_mem_filter hx
  · intro x
    rw [List.countP_nil]
    have := hgC x
    unfold modelDeg modelAdj at *
    unfold modelKeys
    omega
  · intro x hx
    rw [List.nil_append] at hx
    unfold initQueue at hx
    rw [List.mem_filter] at hx
    exact of_decide_eq_true hx.2

theorem kahnResult_spec (m : CircuitModel) :
    (kahnResult m).2.1 = [] ∧
    kahnInv (modelAdj m) (modelKeys m) (topoOrder m) [] (kahnResult m).2.2 := by
  obtain ⟨hgN, hgM, hgC⟩ := buildGraph_inv (modelIds m) m.wires
  have hkN : (modelKeys m).Nodup := insKeys_nodup (modelIds m)
  have hadjN : ∀ p, (modelAdj m p).Nodup := hgN
  have hadjK : ∀ q x, x ∈ modelAdj m q → x ∈ modelKeys m := by
    intro q x hx
    exact mem_insKeys.mpr (hgM q x hx).2
  exact kahn_loop_inv hkN hadjN hadjK
    ((modelKeys m).length + 1) (initQueue m) [] (modelDeg m)
    (kahnInv_init m) (by simp)

theorem topoOrder_nodup (m : CircuitModel) : (topoOrder m).Nodup := by
  have h := (kahnResult_spec m).2.1
  simpa using h

theorem topoOrder_subset_keys (m : CircuitModel) :
    ∀ x ∈ topoOrder m, x ∈ modelKeys m := by
  intro x hx
  exact (kahnResult_spec m).2.2.1 x (List.mem_append_left _ hx)

theorem topoOrder_complete (m : CircuitModel)
    (h : m.components.length ≤ (topoOrder m).length) :
    ∀ c ∈ m.components, c.id ∈ topoOrder m := by
  intro c hc
  have hkeysN : (modelKeys m).Nodup := insKeys_nodup (modelIds m)
  have hkeys_le : (modelKeys m).length ≤ m.components.length := by
    have h1 : (modelKeys m).length ≤ (modelIds m).length := insKeys_length_le (modelIds m)
    have h2 : (modelIds m).length = m.components.length := List.length_map _ _
    omega
  have hcov := nodup_subset_length_eq_mem (topoOrder_nodup m) hkeysN
    (topoOrder_subset_keys m) (by omega)
  have hidmem : c.id ∈ modelKeys m :=
    mem_insKeys.mpr (List.mem_map_of_mem Component.id hc)
  exact hcov c.id hidmem

/-! ### Fixed-point loop characterization -/

theorem fixLoop_iterPass (ev : CircuitModel → SignalMap)
    (wm : String → Option WireEnd) (rem : List Component) :
    ∀ (f : Nat) (σ : SignalMap),
    ∃ k, k ≤ f ∧ fixLoop ev wm rem f σ = iterPass ev wm rem k σ ∧
      (1 ≤ f → 1 ≤ k) ∧
      (k < f → 1 ≤ k ∧
        (runPass ev wm rem (iterPass ev wm rem (k - 1) σ)).2 = false) := by
  intro f
  induction f with
  | zero =>
    intro σ
    exact ⟨0, Nat.le_refl 0, rfl, by omega, by omega⟩
  | succ f ih =>
    intro σ
    unfold fixLoop
    by_cases hch : (runPass ev wm rem σ).2 = true
    · rw [if_pos hch]
      obtain ⟨k, hk, heq, hk1, hstop⟩ := ih (runPass ev wm rem σ).1
      refine ⟨k + 1, by omega, heq, by omega, ?_⟩
      intro hlt
      have hstop' := hstop (by omega)
      refine ⟨by omega, ?_⟩
      have hkpos : k = (k - 1) + 1 ∨ k = 0 := by omega
      cases hkpos with
      | inl hkpos =>
        show (runPass ev wm rem (iterPass ev wm rem (k + 1 - 1) σ)).2 = false
        have h1 : k + 1 - 1 = (k - 1) + 1 := by omega
        rw [h1]
        exact hstop'.2
      | inr hkpos =>
        exfalso
        have := hstop'.1
        omega
    · rw [if_neg hch]
      have hch' : (runPass ev wm rem σ).2 = false := by
        cases h : (runPass ev wm rem σ).2 with
        | false => rfl
        | true => exact absurd h hch
      refine ⟨1, by omega, rfl, by omega, ?_⟩
      intro _
      exact ⟨Nat.le_refl 1, hch'⟩

/-- C2: `evaluate` terminates on every circuit model.  The Kahn loop always
drains its queue within its fuel, the components it reaches are pairwise
distinct map keys evaluated once each, in order, by the topological phase,
and the remaining (cyclic) components are re-evaluated in `k ≤ 100` passes
such that either the `k`-th pass changed no remaining component's `:OUT`
value (early stop) or `k = 100` (the `MAX_ITER` ceiling). -/
theorem c2_evaluate_terminates (m : CircuitModel) :
    ((kahnResult m).2.1 = []) ∧
    (topoOrder m).Nodup ∧
    (∀ x ∈ topoOrder m, x ∈ modelKeys m) ∧
    evaluate m = evalBody (evaluateFuel m.mdepth) m ∧
    (((topoOrder m).length < m.components.length →
       ∃ k, 1 ≤ k ∧ k ≤ 100 ∧
         evaluate m = iterPass (evaluateFuel m.mdepth) (buildWireMap m.wires)
           (remainingComps m) k
           (topoPhase (evaluateFuel m.mdepth) (buildWireMap m.wires)
             (compsById m.components) (topoOrder m) (initSignals m)) ∧
         (k < 100 →
           (runPass (evaluateFuel m.mdepth) (buildWireMap m.wires) (remainingComps m)
             (iterPass (evaluateFuel m.mdepth) (buildWireMap m.wires)
               (remainingComps m) (k - 1)
               (topoPhase (evaluateFuel m.mdepth) (buildWireMap m.wires)
                 (compsById m.components) (topoOrder m) (initSignals m)))).2 = false)) ∧
     (¬ (topoOrder m).length < m.components.length →
       evaluate m = topoPhase (evaluateFuel m.mdepth) (buildWireMap m.wires)
         (compsById m.components) (topoOrder m) (initSignals m))) := by
  refine ⟨(kahnResult_spec m).1, topoOrder_nodup m, topoOrder_subset_keys m, rfl, ?_, ?_⟩
  · intro hlt
    have hbody : evaluate m = fixLoop (evaluateFuel m.mdepth) (buildWireMap m.wires)
        (remainingComps m) 100
        (topoPhase (evaluateFuel m.mdepth) (buildWireMap m.wires)
          (compsById m.components) (topoOrder m) (initSignals m)) := by
      show evalBody (evaluateFuel m.mdepth) m = _
      unfold evalBody
      rw [if_pos hlt]
    obtain ⟨k, hk, heq, hk1, hstop⟩ := fixLoop_iterPass (evaluateFuel m.mdepth)
      (buildWireMap m.wires) (remainingComps m) 100
      (topoPhase (evaluateFuel m.mdepth) (buildWireMap m.wires)
        (compsById m.components) (topoOrder m) (initSignals m))
    refine ⟨k, hk1 (by omega), hk, hbody.trans heq, ?_⟩
    intro hklt
    exact (hstop hklt).2
  · intro hge
    show evalBody (evaluateFuel m.mdepth) m = _
    unfold evalBody
    rw [if_neg hge]

/-- Witness for C2 at the self-loop circuit (a genuinely cyclic model): the
Kahn queue drains and the topological order is duplicate-free. -/
theorem c2_evaluate_terminates_witness :
    (kahnResult selfLoopCircuit).2.1 = [] ∧ (topoOrder selfLoopCircuit).Nodup :=
  ⟨(c2_evaluate_terminates selfLoopCircuit).1,
   (c2_evaluate_terminates selfLoopCircuit).2.1⟩

/-! ### Per-key stability of toggle outputs -/

theorem computeOutput_snd_of_ne_custom (ev : CircuitModel → SignalMap)
    (wm : String → Option WireEnd) (σ : SignalMap) (c : Component)
    (h : c.type ≠ Ctype.CUSTOM) : (computeOutput ev wm σ c).2 = σ := by
  unfold computeOutput
  cases hct : c.type <;> try rfl
  exact absurd hct h

theorem computeOutput_toggle (ev : CircuitModel → SignalMap)
    (wm : String → Option WireEnd) (σ : SignalMap) (c : Component)
    (h : c.type = Ctype.TOGGLE) : computeOutput ev wm σ c = (c.props.state, σ) := by
  unfold computeOutput
  rw [h]

theorem getCCOP_mem {d : CustomComponentDefinition} {p : String}
    (h : p ∈ getCustomComponentOutputPorts d) : ∃ i : Nat, p = "OUT" ++ Nat.repr i := by
  unfold getCustomComponentOutputPorts at h
  rw [List.mem_map] at h
  obtain ⟨q, _, hq⟩ := h
  exact ⟨q.1, hq.symm⟩

theorem portsFold_no_write (cid : String) (g : String → Bool) :
    ∀ (ports : List String) (σ : SignalMap) (k : String),
    (∀ p ∈ ports, toKey cid p ≠ k) →
    (ports.foldl (fun s port => sset s (toKey cid port) (g port)) σ) k = σ k := by
  intro ports
  induction ports with
  | nil => intro σ k _; rfl
  | cons p rest ih =>
    intro σ k h
    simp only [List.foldl_cons]
    rw [ih _ k (fun q hq => h q (List.mem_cons_of_mem p hq))]
    exact sset_ne σ _ _ (fun hEq => h p (List.mem_cons_self p rest) hEq.symm)

theorem computeOutput_snd_untouched (ev : CircuitModel → SignalMap)
    (wm : String → Option WireEnd) (σ : SignalMap) (c : Component) (k : String)
    (h : ∀ i : Nat, k ≠ toKey c.id ("OUT" ++ Nat.repr i)) :
    (computeOutput ev wm σ c).2 k = σ k := by
  by_cases hcust : c.type = Ctype.CUSTOM
  · unfold computeOutput
    rw [hcust]
    show (computeCustomComponent ev wm σ c).2 k = σ k
    unfold computeCustomComponent
    cases hd : c.customDef with
    | none => rfl
    | some d =>
      simp only
      refine portsFold_no_write c.id _ _ σ k ?_
      intro p hp hEq
      obtain ⟨i, hi⟩ := getCCOP_mem hp
      exact h i (by rw [← hEq, hi])
  · rw [computeOutput_snd_of_ne_custom ev wm σ c hcust]

theorem toKey_ne_of_id_ne {a b : String} (ha : ':' ∉ a.data) (hb : ':' ∉ b.data)
    (h : a ≠ b) (p q : String) : toKey a p ≠ toKey b q :=
  fun hEq => h (toKey_inj ha hb hEq).1

theorem toggleOK_write {comps : List Component}
    (hN : (comps.map Component.id).Nodup) (hcol : ∀ c ∈ comps, ':' ∉ c.id.data)
    (ev : CircuitModel → SignalMap) (wm : String → Option WireEnd)
    {c : Component} (hc : c ∈ comps) {σ : SignalMap} (hσ : toggleOK comps σ) :
    toggleOK comps (computeOutput ev wm σ c).2 ∧
    toggleOK comps
      (sset (computeOutput ev wm σ c).2 (outKey c.id) (computeOutput ev wm σ c).1) := by
  have hmid : ∀ t ∈ comps, t.type = Ctype.TOGGLE →
      (computeOutput ev wm σ c).2 (outKey t.id) = σ (outKey t.id) := by
    intro t ht htT
    by_cases hcust : c.type = Ctype.CUSTOM
    · refine computeOutput_snd_untouched ev wm σ c (outKey t.id) ?_
      intro i hEq
      have hids := toKey_inj (hcol t ht) (hcol c hc) hEq
      have hteq : t = c := eq_of_mem_of_id_eq hN ht hc hids.1
      rw [hteq] at htT
      rw [htT] at hcust
      exact Ctype.noConfusion hcust
    · rw [computeOutput_snd_of_ne_custom ev wm σ c hcust]
  constructor
  · intro t ht htT
    rw [hmid t ht htT]
    exact hσ t ht htT
  · intro t ht htT
    by_cases hid : t.id = c.id
    · have hteq : t = c := eq_of_mem_of_id_eq hN ht hc hid
      subst hteq
      rw [computeOutput_toggle ev wm σ t htT]
      rw [sset_eq]
    · have hkey : outKey t.id ≠ outKey c.id :=
        toKey_ne_of_id_ne (hcol t ht) (hcol c hc) hid "OUT" "OUT"
      rw [sset_ne _ _ _ hkey, hmid t ht htT]
      exact hσ t ht htT

theorem toggleOK_topoStep {comps : List Component}
    (hN : (comps.map Component.id).Nodup) (hcol : ∀ c ∈ comps, ':' ∉ c.id.data)
    (ev : CircuitModel → SignalMap) (wm : String → Option WireEnd)
    {σ : SignalMap} (hσ : toggleOK comps σ) (id : String) :
    toggleOK comps (topoStep ev wm (compsById comps) σ id) := by
  unfold topoStep
  cases hid : compsById comps id with
  | none => exact hσ
  | some c =>
    have hc : c ∈ comps := (compsById_some hid).1
    exact (toggleOK_write hN hcol ev wm hc hσ).2

theorem toggleOK_topoPhase {comps : List Component}
    (hN : (comps.map Component.id).Nodup) (hcol : ∀ c ∈ comps, ':' ∉ c.id.data)
    (ev : CircuitModel → SignalMap) (wm : String → Option WireEnd) :
    ∀ (topo : List String) {σ : SignalMap}, toggleOK comps σ →
    toggleOK comps (topoPhase ev wm (compsById comps) topo σ) := by
  intro topo
  induction topo with
  | nil => intro σ hσ; exact hσ
  | cons id rest ih =>
    intro σ hσ
    unfold topoPhase at *
    simp only [List.foldl_cons]
    exact ih (toggleOK_topoStep hN hcol ev wm hσ id)

theorem toggleOK_passStep {comps : List Component}
    (hN : (comps.map Component.id).Nodup) (hcol : ∀ c ∈ comps, ':' ∉ c.id.data)
    (ev : CircuitModel → SignalMap) (wm : String → Option WireEnd)
    {c : Component} (hc : c ∈ comps) {σ : SignalMap} (hσ : toggleOK comps σ) (b : Bool) :
    toggleOK comps (passStep ev wm (σ, b) c).1 := by
  unfold passStep
  split
  · exact (toggleOK_write hN hcol ev wm hc hσ).1
  · exact (toggleOK_write hN hcol ev wm hc hσ).2

theorem toggleOK_passFold {comps : List Component}
    (hN : (comps.map Component.id).Nodup) (hcol : ∀ c ∈ comps, ':' ∉ c.id.data)
    (ev : CircuitModel → SignalMap) (wm : String → Option WireEnd) :
    ∀ (l : List Component), (∀ c ∈ l, c ∈ comps) →
    ∀ {σ : SignalMap} (b : Bool), toggleOK comps σ →
    toggleOK comps (l.foldl (passStep ev wm) (σ, b)).1 := by
  intro l
  induction l with
  | nil => intro _ σ b hσ; exact hσ
  | cons c rest ih =>
    intro hsub σ b hσ
    simp only [List.foldl_cons]
    have hc : c ∈ comps := hsub c (List.mem_cons_self c rest)
    have hpair : passStep ev wm (σ, b) c =
        ((passStep ev wm (σ, b) c).1, (passStep ev wm (σ, b) c).2) := rfl
    rw [hpair]
    exact ih (fun x hx => hsub x (List.mem_cons_of_mem c hx)) _
      (toggleOK_passStep hN hcol ev wm hc hσ b)

theorem initFold_no_write : ∀ (l : List Component) (σ : SignalMap) (k : String),
    (∀ x ∈ l, outKey x.id ≠ k) →
    (l.foldl (fun σ c => sset σ (outKey c.id)
      (if c.type = Ctype.TOGGLE ∨ c.type = Ctype.CLOCK then c.props.state else false)) σ) k
      = σ k := by
  intro l
  induction l with
  | nil => intro σ k _; rfl
  | cons c rest ih =>
    intro σ k h
    simp only [List.foldl_cons]
    rw [ih _ k (fun x hx => h x (List.mem_cons_of_mem c hx))]
    exact sset_ne σ _ _ (fun hEq => h c (List.mem_cons_self c rest) hEq.symm)

theorem initFold_lookup : ∀ (l : List Component) (σ : SignalMap),
    (l.map Component.id).Nodup → (∀ x ∈ l, ':' ∉ x.id.data) →
    ∀ {c : Component}, c ∈ l →
    (l.foldl (fun σ c => sset σ (outKey c.id)
      (if c.type = Ctype.TOGGLE ∨ c.type = Ctype.CLOCK then c.props.state else false)) σ)
        (outKey c.id)
      = some (if c.type = Ctype.TOGGLE ∨ c.type = Ctype.CLOCK then c.props.state else false) := by
  intro l
  induction l with
  | nil => intro σ _ _ c hc; cases hc
  | cons d rest ih =>
    intro σ hN' hcol' c hc
    rw [List.map_cons, List.nodup_cons] at hN'
    simp only [List.foldl_cons]
    cases hc with
    | head =>
      refine (initFold_no_write rest _ (outKey d.id) ?_).trans (sset_eq _ _ _)
      intro x hx
      refine toKey_ne_of_id_ne (hcol' x (List.mem_cons_of_mem d hx))
        (hcol' d (List.mem_cons_self d rest)) ?_ "OUT" "OUT"
      intro hEq
      exact hN'.1 (hEq ▸ List.mem_map_of_mem Component.id hx)
    | tail _ hc' =>
      exact ih _ hN'.2 (fun x hx => hcol' x (List.mem_cons_of_mem d hx)) hc'

theorem initSignals_lookup {m : CircuitModel}
    (hN : (modelIds m).Nodup) (hcol : ∀ c ∈ m.components, ':' ∉ c.id.data)
    {c : Component} (hc : c ∈ m.components) :
    initSignals m (outKey c.id) =
      some (if c.type = Ctype.TOGGLE ∨ c.type = Ctype.CLOCK then c.props.state else false) :=
  initFold_lookup m.components semp hN hcol hc

theorem toggleOK_init {m : CircuitModel}
    (hN : (modelIds m).Nodup) (hcol : ∀ c ∈ m.components, ':' ∉ c.id.data) :
    toggleOK m.components (initSignals m) := by
  intro t ht htT
  rw [initSignals_lookup hN hcol ht]
  rw [if_pos (Or.inl htT)]

/-! ### The gate truth-table theorem -/

/-- The seven two-input gate kinds of `computeOutput` (NOT reads only `A`). -/
def gateKinds (t : Ctype) : Prop :=
  t = Ctype.AND ∨ t = Ctype.OR ∨ t = Ctype.NOT ∨ t = Ctype.NAND ∨
  t = Ctype.NOR ∨ t = Ctype.XOR ∨ t = Ctype.XNOR

theorem gateKinds_ne_custom {t : Ctype} (h : gateKinds t) : t ≠ Ctype.CUSTOM := by
  rcases h with h | h | h | h | h | h | h <;> rw [h] <;> intro hEq <;>
    exact Ctype.noConfusion hEq

theorem inputOf_toggle {comps : List Component} {σ : SignalMap}
    {wm : String → Option WireEnd} (hσ : toggleOK comps σ) {gid : String}
    {t : Component} (ht : t ∈ comps) (htT : t.type = Ctype.TOGGLE) (port : String)
    (hw : wm (toKey gid port) = some ⟨t.id, "OUT"⟩) :
    inputOf wm σ gid port = t.props.state := by
  unfold inputOf
  rw [hw]
  show sget σ (WireEnd.key ⟨t.id, "OUT"⟩) = t.props.state
  have hk : WireEnd.key ⟨t.id, "OUT"⟩ = outKey t.id := rfl
  rw [hk]
  unfold sget
  rw [hσ t ht htT]
  rfl

theorem computeOutput_gate (ev : CircuitModel → SignalMap)
    (wm : String → Option WireEnd) {comps : List Component} {σ : SignalMap}
    (hσ : toggleOK comps σ) {g ta tb : Component}
    (hta : ta ∈ comps) (htaT : ta.type = Ctype.TOGGLE)
    (htb : tb ∈ comps) (htbT : tb.type = Ctype.TOGGLE)
    (hwa : wm (toKey g.id "A") = some ⟨ta.id, "OUT"⟩)
    (hwb : wm (toKey g.id "B") = some ⟨tb.id, "OUT"⟩)
    (hkind : gateKinds g.type) :
    computeOutput ev wm σ g = (gateDenote g.type ta.props.state tb.props.state, σ) := by
  have hA := inputOf_toggle hσ hta htaT "A" hwa
  have hB := inputOf_toggle hσ htb htbT "B" hwb
  unfold computeOutput gateDenote
  rcases hkind with h | h | h | h | h | h | h <;> rw [h] <;> simp only [hA, hB]

theorem gKey_write {comps : List Component}
    (hN : (comps.map Component.id).Nodup) (hcol : ∀ c ∈ comps, ':' ∉ c.id.data)
    (ev : CircuitModel → SignalMap) (wm : String → Option WireEnd)
    {g : Component} (hg : g ∈ comps) (hgnc : g.type ≠ Ctype.CUSTOM)
    {target : Bool}
    (htarget : ∀ σ', toggleOK comps σ' → computeOutput ev wm σ' g = (target, σ'))
    {c : Component} (hc : c ∈ comps) {σ : SignalMap} (hσT : toggleOK comps σ) :
    ((computeOutput ev wm σ c).2 (outKey g.id) = σ (outKey g.id)) ∧
    (σ (outKey g.id) = some target →
      (sset (computeOutput ev wm σ c).2 (outKey c.id) (computeOutput ev wm σ c).1)
        (outKey g.id) = some target) ∧
    (c = g →
      (sset (computeOutput ev wm σ c).2 (outKey c.id) (computeOutput ev wm σ c).1)
        (outKey g.id) = some target) := by
  have hmid : (computeOutput ev wm σ c).2 (outKey g.id) = σ (outKey g.id) := by
    by_cases hcust : c.type = Ctype.CUSTOM
    · refine computeOutput_snd_untouched ev wm σ c _ ?_
      intro i hEq
      have hids := toKey_inj (hcol g hg) (hcol c hc) hEq
      have hgeq : g = c := eq_of_mem_of_id_eq hN hg hc hids.1
      rw [hgeq] at hgnc
      exact hgnc hcust
    · rw [computeOutput_snd_of_ne_custom ev wm σ c hcust]
  refine ⟨hmid, ?_, ?_⟩
  · intro hval
    by_cases hid : c.id = g.id
    · have hceq : c = g := eq_of_mem_of_id_eq hN hc hg hid
      subst hceq
      rw [htarget σ hσT]
      exact sset_eq _ _ _
    · have hkey : outKey g.id ≠ outKey c.id :=
        toKey_ne_of_id_ne (hcol g hg) (hcol c hc) (fun h => hid h.symm) "OUT" "OUT"
      rw [sset_ne _ _ _ hkey, hmid]
      exact hval
  · intro hceq
    subst hceq
    rw [htarget σ hσT]
    exact sset_eq _ _ _

theorem gKey_topoStep {comps : List Component}
    (hN : (comps.map Component.id).Nodup) (hcol : ∀ c ∈ comps, ':' ∉ c.id.data)
    (ev : CircuitModel → SignalMap) (wm : String → Option WireEnd)
    {g : Component} (hg : g ∈ comps) (hgnc : g.type ≠ Ctype.CUSTOM)
    {target : Bool}
    (htarget : ∀ σ', toggleOK comps σ' → computeOutput ev wm σ' g = (target, σ'))
    {σ : SignalMap} (hσT : toggleOK comps σ) (id : String) :
    (σ (outKey g.id) = some target →
      topoStep ev wm (compsById comps) σ id (outKey g.id) = some target) ∧
    (id = g.id →
      topoStep ev wm (compsById comps) σ id (outKey g.id) = some target) := by
  unfold topoStep
  cases hid : compsById comps id with
  | none =>
    refine ⟨fun h => h, fun hEq => ?_⟩
    exfalso
    rw [hEq, compsById_self hN hg] at hid
    cases hid
  | some c =>
    have hc := (compsById_some hid).1
    have hcid := (compsById_some hid).2
    simp only []
    obtain ⟨hmid, hpres, hest⟩ := gKey_write hN hcol ev wm hg hgnc htarget hc hσT
    refine ⟨hpres, fun hEq => hest ?_⟩
    exact eq_of_mem_of_id_eq hN hc hg (by rw [hcid, hEq])

theorem gKey_topoPhase {comps : List Component}
    (hN : (comps.map Component.id).Nodup) (hcol : ∀ c ∈ comps, ':' ∉ c.id.data)
    (ev : CircuitModel → SignalMap) (wm : String → Option WireEnd)
    {g : Component} (hg : g ∈ comps) (hgnc : g.type ≠ Ctype.CUSTOM)
    {target : Bool}
    (htarget : ∀ σ', toggleOK comps σ' → computeOutput ev wm σ' g = (target, σ')) :
    ∀ (topo : List String) {σ : SignalMap}, toggleOK comps σ →
    (σ (outKey g.id) = some target →
      topoPhase ev wm (compsById comps) topo σ (outKey g.id) = some target) ∧
    (g.id ∈ topo →
      topoPhase ev wm (compsById comps) topo σ (outKey g.id) = some target) := by
  intro topo
  induction topo with
  | nil =>
    intro σ hσ
    exact ⟨fun h => h, fun h => absurd h (List.not_mem_nil _)⟩
  | cons id rest ih =>
    intro σ hσ
    unfold topoPhase at *
    simp only [List.foldl_cons]
    have hσ' := toggleOK_topoStep hN hcol ev wm hσ id
    obtain ⟨hsp, hse⟩ := gKey_topoStep hN hcol ev wm hg hgnc htarget hσ id
    obtain ⟨hip, hie⟩ := ih hσ'
    refine ⟨fun h => hip (hsp h), fun hmem => ?_⟩
    rw [List.mem_cons] at hmem
    cases hmem with
    | inl hEq => exact hip (hse hEq.symm)
    | inr hmem' => exact hie hmem'

theorem gKey_passStep {comps : List Component}
    (hN : (comps.map Component.id).Nodup) (hcol : ∀ c ∈ comps, ':' ∉ c.id.data)
    (ev : CircuitModel → SignalMap) (wm : String → Option WireEnd)
    {g : Component} (hg : g ∈ comps) (hgnc : g.type ≠ Ctype.CUSTOM)
    {target : Bool}
    (htarget : ∀ σ', toggleOK comps σ' → computeOutput ev wm σ' g = (target, σ'))
    {c : Component} (hc : c ∈ comps) {σ : SignalMap} (hσT : toggleOK comps σ)
    (b : Bool) :
    (σ (outKey g.id) = some target →
      (passStep ev wm (σ, b) c).1 (outKey g.id) = some target) ∧
    (c = g → (σ (outKey g.id)).isSome →
      (passStep ev wm (σ, b) c).1 (outKey g.id) = some target) := by
  obtain ⟨hmid, hpres, hest⟩ := gKey_write hN hcol ev wm hg hgnc htarget hc hσT
  constructor
  · intro h
    unfold passStep
    split
    · show (computeOutput ev wm σ c).2 (outKey g.id) = some target
      rw [hmid]; exact h
    · show sset (computeOutput ev wm σ c).2 (outKey c.id)
        (computeOutput ev wm σ c).1 (outKey g.id) = some target
      exact hpres h
  · intro hceq hsome
    subst hceq
    unfold passStep
    rw [htarget σ hσT]
    simp only []
    split
    · next hcond =>
      cases hval : σ (outKey c.id) with
      | none => rw [hval] at hsome; cases hsome
      | some v =>
        have hv : v = target := by
          unfold sget at hcond
          rw [hval] at hcond
          simpa using hcond
        show σ (outKey c.id) = some target
        rw [hval, hv]
    · exact sset_eq _ _ _

theorem gKey_passFold {comps : List Component}
    (hN : (comps.map Component.id).Nodup) (hcol : ∀ c ∈ comps, ':' ∉ c.id.data)
    (ev : CircuitModel → SignalMap) (wm : String → Option WireEnd)
    {g : Component} (hg : g ∈ comps) (hgnc : g.type ≠ Ctype.CUSTOM)
    {target : Bool}
    (htarget : ∀ σ', toggleOK comps σ' → computeOutput ev wm σ' g = (target, σ')) :
    ∀ (l : List Component), (∀ c ∈ l, c ∈ comps) →
    ∀ {σ : SignalMap} (b : Bool), toggleOK comps σ → (σ (outKey g.id)).isSome →
    (σ (outKey g.id) = some target →
      (l.foldl (passStep ev wm) (σ, b)).1 (outKey g.id) = some target) ∧
    (g ∈ l → (l.foldl (passStep ev wm) (σ, b)).1 (outKey g.id) = some target) := by
  intro l
  induction l with
  | nil =>
    intro _ σ b hσ hsome
    exact ⟨fun h => h, fun h => absurd h (List.not_mem_nil _)⟩
  | cons c rest ih =>
    intro hsub σ b hσ hsome
    simp only [List.foldl_cons]
    have hc : c ∈ comps := hsub c (List.mem_cons_self c rest)
    have hpair : passStep ev wm (σ, b) c =
        ((passStep ev wm (σ, b) c).1, (passStep ev wm (σ, b) c).2) := rfl
    rw [hpair]
    have hσ' := toggleOK_passStep hN hcol ev wm hc hσ b
    have hsome' : ((passStep ev wm (σ, b) c).1 (outKey g.id)).isSome :=
      writesWithin_isSome (passStep_fst_writesWithin ev wm hc σ b) hsome
    obtain ⟨hsp, hse⟩ := gKey_passStep hN hcol ev wm hg hgnc htarget hc hσ b
    obtain ⟨hip, hie⟩ := ih (fun x hx => hsub x (List.mem_cons_of_mem c hx)) _ hσ' hsome'
    refine ⟨fun h => hip (hsp h), fun hmem => ?_⟩
    cases hmem with
    | head => exact hip (hse rfl hsome)
    | tail _ hmem' => exact hie hmem'

theorem gKey_fixLoop_pres {comps : List Component}
    (hN : (comps.map Component.id).Nodup) (hcol : ∀ c ∈ comps, ':' ∉ c.id.data)
    (ev : CircuitModel → SignalMap) (wm : String → Option WireEnd)
    {g : Component} (hg : g ∈ comps) (hgnc : g.type ≠ Ctype.CUSTOM)
    {target : Bool}
    (htarget : ∀ σ', toggleOK comps σ' → computeOutput ev wm σ' g = (target, σ'))
    {rem : List Component} (hsub : ∀ c ∈ rem, c ∈ comps) :
    ∀ (fuel : Nat) {σ : SignalMap}, toggleOK comps σ → (σ (outKey g.id)).isSome →
    σ (outKey g.id) = some target →
    fixLoop ev wm rem fuel σ (outKey g.id) = some target := by
  intro fuel
  induction fuel with
  | zero => intro σ _ _ h; exact h
  | succ f ih =>
    intro σ hσ hsome h
    unfold fixLoop
    have hfold := gKey_passFold hN hcol ev wm hg hgnc htarget rem hsub false hσ hsome
    have hrp := hfold.1 h
    have hσ' : toggleOK comps (runPass ev wm rem σ).1 :=
      toggleOK_passFold hN hcol ev wm rem hsub false hσ
    have hsome' : ((runPass ev wm rem σ).1 (outKey g.id)).isSome :=
      writesWithin_isSome (runPass_fst_writesWithin ev wm hsub σ) hsome
    split
    · exact ih hσ' hsome' hrp
    · exact hrp

theorem gKey_fixLoop_est {comps : List Component}
    (hN : (comps.map Component.id).Nodup) (hcol : ∀ c ∈ comps, ':' ∉ c.id.data)
    (ev : CircuitModel → SignalMap) (wm : String → Option WireEnd)
    {g : Component} (hg : g ∈ comps) (hgnc : g.type ≠ Ctype.CUSTOM)
    {target : Bool}
    (htarget : ∀ σ', toggleOK comps σ' → computeOutput ev wm σ' g = (target, σ'))
    {rem : List Component} (hsub : ∀ c ∈ rem, c ∈ comps) (hgrem : g ∈ rem)
    (f : Nat) {σ : SignalMap} (hσ : toggleOK comps σ)
    (hsome : (σ (outKey g.id)).isSome) :
    fixLoop ev wm rem (f + 1) σ (outKey g.id) = some target := by
  unfold fixLoop
  have hfold := gKey_passFold hN hcol ev wm hg hgnc htarget rem hsub false hσ hsome
  have hest := hfold.2 hgrem
  have hσ' : toggleOK comps (runPass ev wm rem σ).1 :=
    toggleOK_passFold hN hcol ev wm rem hsub false hσ
  have hsome' : ((runPass ev wm rem σ).1 (outKey g.id)).isSome :=
    writesWithin_isSome (runPass_fst_writesWithin ev wm hsub σ) hsome
  split
  · exact gKey_fixLoop_pres hN hcol ev wm hg hgnc htarget hsub f hσ' hsome' hest
  · exact hest

theorem evaluate_gate_key {m : CircuitModel}
    (hN : (modelIds m).Nodup) (hcol : ∀ c ∈ m.components, ':' ∉ c.id.data)
    {g ta tb : Component} (hg : g ∈ m.components)
    (hta : ta ∈ m.components) (htaT : ta.type = Ctype.TOGGLE)
    (htb : tb ∈ m.components) (htbT : tb.type = Ctype.TOGGLE)
    (hwa : buildWireMap m.wires (toKey g.id "A") = some ⟨ta.id, "OUT"⟩)
    (hwb : buildWireMap m.wires (toKey g.id "B") = some ⟨tb.id, "OUT"⟩)
    (hkind : gateKinds g.type) :
    evaluate m (outKey g.id) =
      some (gateDenote g.type ta.props.state tb.props.state) := by
  have hgnc : g.type ≠ Ctype.CUSTOM := gateKinds_ne_custom hkind
  have htarget : ∀ σ', toggleOK m.components σ' →
      computeOutput (evaluateFuel m.mdepth) (buildWireMap m.wires) σ' g =
        (gateDenote g.type ta.props.state tb.props.state, σ') :=
    fun σ' hσ' =>
      computeOutput_gate (evaluateFuel m.mdepth) (buildWireMap m.wires) hσ'
        hta htaT htb htbT hwa hwb hkind
  have hσ0 : toggleOK m.components (initSignals m) := toggleOK_init hN hcol
  have hsome0 : ((initSignals m) (outKey g.id)).isSome := initSignals_isSome m hg
  have hcbi : ∀ id c, compsById m.components id = some c → c ∈ m.components :=
    fun id c h => (compsById_some h).1
  obtain ⟨hpres1, hest1⟩ := gKey_topoPhase hN hcol (evaluateFuel m.mdepth)
    (buildWireMap m.wires) hg hgnc htarget (topoOrder m) hσ0
  have hσ1 : toggleOK m.components
      (topoPhase (evaluateFuel m.mdepth) (buildWireMap m.wires)
        (compsById m.components) (topoOrder m) (initSignals m)) :=
    toggleOK_topoPhase hN hcol (evaluateFuel m.mdepth) (buildWireMap m.wires)
      (topoOrder m) hσ0
  have hsome1 : ((topoPhase (evaluateFuel m.mdepth) (buildWireMap m.wires)
      (compsById m.components) (topoOrder m) (initSignals m)) (outKey g.id)).isSome :=
    writesWithin_isSome (topoPhase_writesWithin (evaluateFuel m.mdepth)
      (buildWireMap m.wires) hcbi (topoOrder m) (initSignals m)) hsome0
  show evalBody (evaluateFuel m.mdepth) m (outKey g.id) = _
  unfold evalBody
  by_cases hlt : (topoOrder m).length < m.components.length
  · rw [if_pos hlt]
    by_cases hmem : g.id ∈ topoOrder m
    · exact gKey_fixLoop_pres hN hcol (evaluateFuel m.mdepth) (buildWireMap m.wires)
        hg hgnc htarget (remainingComps_subset m) 100 hσ1 hsome1 (hest1 hmem)
    · have hgrem : g ∈ remainingComps m := by
        unfold remainingComps
        rw [List.mem_filter]
        exact ⟨hg, decide_eq_true hmem⟩
      exact gKey_fixLoop_est hN hcol (evaluateFuel m.mdepth) (buildWireMap m.wires)
        hg hgnc htarget (remainingComps_subset m) hgrem 99 hσ1 hsome1
  · rw [if_neg hlt]
    have hmem : g.id ∈ topoOrder m := topoOrder_complete m (by omega) g hg
    exact hest1 hmem

/-- C1: in every circuit model (with unique, colon-free component ids)
where a gate's `A` and `B` inputs resolve, through the evaluator's wire map,
to the `OUT` port of TOGGLE components, `evaluate` returns for the gate's
`OUT` signal exactly the standard boolean function of the toggles' states:
AND is conjunction, OR disjunction, NOT the negation of `A`, NAND/NOR the
negated forms, XOR inequality and XNOR equality of the two inputs. -/
theorem c1_gate_truth_tables (m : CircuitModel)
    (hN : (modelIds m).Nodup) (hcol : colonFreeIds m)
    (g ta tb : Component) (hg : g ∈ m.components)
    (hta : ta ∈ m.components) (htaT : ta.type = Ctype.TOGGLE)
    (htb : tb ∈ m.components) (htbT : tb.type = Ctype.TOGGLE)
    (hwa : buildWireMap m.wires (toKey g.id "A") = some ⟨ta.id, "OUT"⟩)
    (hwb : buildWireMap m.wires (toKey g.id "B") = some ⟨tb.id, "OUT"⟩) :
    (g.type = Ctype.AND →
      evaluate m (outKey g.id) = some (ta.props.state && tb.props.state)) ∧
    (g.type = Ctype.OR →
      evaluate m (outKey g.id) = some (ta.props.state || tb.props.state)) ∧
    (g.type = Ctype.NOT →
      evaluate m (outKey g.id) = some (!ta.props.state)) ∧
    (g.type = Ctype.NAND →
      evaluate m (outKey g.id) = some (!(ta.props.state && tb.props.state))) ∧
    (g.type = Ctype.NOR →
      evaluate m (outKey g.id) = some (!(ta.props.state || tb.props.state))) ∧
    (g.type = Ctype.XOR →
      evaluate m (outKey g.id) = some (ta.props.state != tb.props.state)) ∧
    (g.type = Ctype.XNOR →
      evaluate m (outKey g.id) = some (ta.props.state == tb.props.state)) := by
  refine ⟨fun ht => ?_, fun ht => ?_, fun ht => ?_, fun ht => ?_, fun ht => ?_,
    fun ht => ?_, fun ht => ?_⟩
  · have h := evaluate_gate_key hN hcol hg hta htaT htb htbT hwa hwb (Or.inl ht)
    rw [ht] at h
    exact h
  · have h := evaluate_gate_key hN hcol hg hta htaT htb htbT hwa hwb
      (Or.inr (Or.inl ht))
    rw [ht] at h
    exact h
  · have h := evaluate_gate_key hN hcol hg hta htaT htb htbT hwa hwb
      (Or.inr (Or.inr (Or.inl ht)))
    rw [ht] at h
    exact h
  · have h := evaluate_gate_key hN hcol hg hta htaT htb htbT hwa hwb
      (Or.inr (Or.inr (Or.inr (Or.inl ht))))
    rw [ht] at h
    exact h
  · have h := evaluate_gate_key hN hcol hg hta htaT htb htbT hwa hwb
      (Or.inr (Or.inr (Or.inr (Or.inr (Or.inl ht)))))
    rw [ht] at h
    exact h
  · have h := evaluate_gate_key hN hcol hg hta htaT htb htbT hwa hwb
      (Or.inr (Or.inr (Or.inr (Or.inr (Or.inr (Or.inl ht))))))
    rw [ht] at h
    exact h
  · have h := evaluate_gate_key hN hcol hg hta htaT htb htbT hwa hwb
      (Or.inr (Or.inr (Or.inr (Or.inr (Or.inr (Or.inr ht))))))
    rw [ht] at h
    exact h

/-- Witness for C1: in the concrete XOR circuit with toggle states
`true`/`false`, the gate's `OUT` signal is `true`. -/
theorem c1_gate_truth_tables_witness :
    evaluate (gateCircuit Ctype.XOR true false) (outKey "g") = some true := by
  have h := c1_gate_truth_tables (gateCircuit Ctype.XOR true false)
    (by decide) (fun c hc => by fin_cases hc <;> decide)
    (mkComp "g" Ctype.XOR false) (mkComp "t1" Ctype.TOGGLE true)
    (mkComp "t2" Ctype.TOGGLE false)
    (List.Mem.tail _ (List.Mem.tail _ (List.Mem.head _)))
    (List.Mem.head _) rfl
    (List.Mem.tail _ (List.Mem.head _)) rfl
    (by decide) (by decide)
  exact h.2.2.2.2.2.1 rfl

end Pulse
